import Mathlib

/- Shallow embedding of the INI parser and structure-preserving editor of
   stcdetail/ini.go.  Go byte strings are modelled as lists of natural
   numbers, one entry per byte; Go runes that may be the EOF sentinel are
   modelled as Option Nat.  Loops are modelled with explicit fuel so that
   every definition evaluates inside the kernel; fuel exhaustion is a
   distinguished outcome that is proved unreachable for the fuel amounts
   the top-level entry points supply. -/

abbrev Bytes := List Nat

/-- Byte list of an ASCII string literal (every literal used below is ASCII,
so Char.toNat is exactly the Go byte value). -/
def bstr (s : String) : Bytes := s.toList.map Char.toNat

/-- Go isAlpha: clear bit 0x20 of the rune, then test for an upper-case
ASCII letter.  Clearing bit 5 of a natural number is subtracting the
masked bit. -/
def isAlpha (c : Nat) : Bool :=
  let d := c - (c &&& 32)
  decide (65 ≤ d ∧ d ≤ 90)

/-- Go isKeyChar: letter, digit or hyphen. -/
def isKeyChar (c : Nat) : Bool :=
  isAlpha c || decide (48 ≤ c ∧ c ≤ 57) || decide (c = 45)

/- Go ValidIniSection iterates the runes of the string, but since every
key character is ASCII, a string is all key characters as runes exactly
when it is all key characters as bytes; the byte-level definition below
is therefore equivalent to the Go one. -/

/-- Go ValidIniSection: non-empty and all key characters. -/
def ValidIniSection (s : Bytes) : Bool :=
  decide (s ≠ []) && s.all isKeyChar

/-- Go ValidIniSubsection: no newline and no NUL byte. -/
def ValidIniSubsection (s : Bytes) : Bool :=
  s.all (fun b => decide (b ≠ 10 ∧ b ≠ 0))

/-- Go ValidIniKey: non-empty, starts with a letter, all key characters. -/
def ValidIniKey (s : Bytes) : Bool :=
  match s with
  | [] => false
  | c :: _ => isAlpha c && s.all isKeyChar

structure IniSection where
  Section : Bytes
  Subsection : Option Bytes
deriving DecidableEq, Repr

/-- Go (*IniSection).Valid for a non-nil section pointer. -/
def IniSection.ValidB (s : IniSection) : Bool :=
  ValidIniSection s.Section &&
    (match s.Subsection with
     | none => true
     | some ss => ValidIniSubsection ss)

/-- Go (*IniSection).Valid; a nil pointer (modelled as none) is valid. -/
def sectionValid (s : Option IniSection) : Bool :=
  match s with
  | none => true
  | some s => s.ValidB

/-- Escaping loop of Go (*IniSection).String: backslash-escape the
backslash and double-quote bytes; a newline or NUL byte panics, which is
modelled as none. -/
def subEscape : Bytes → Option Bytes
  | [] => some []
  | b :: t =>
    if b = 10 ∨ b = 0 then none
    else (subEscape t).map
      (fun r => (if b = 92 ∨ b = 34 then [92, b] else [b]) ++ r)

/-- Go (*IniSection).String: nil renders as the empty string, otherwise
as [name] or [name "escaped-subsection"], panicking (none) on an illegal
subsection byte. -/
def sectionBytes : Option IniSection → Option Bytes
  | none => some []
  | some ⟨sec, none⟩ => some ([91] ++ sec ++ [93])
  | some ⟨sec, some sub⟩ =>
    (subEscape sub).map (fun e => [91] ++ sec ++ [32, 34] ++ e ++ [34, 93])

/-- Go IniQKey: panics (none) when the section or the key is invalid,
otherwise the dot-joined qualified key. -/
def IniQKey (s : Option IniSection) (key : Bytes) : Option Bytes :=
  if !sectionValid s then none
  else if !ValidIniKey key then none
  else
    match s with
    | none => some key
    | some ⟨sec, none⟩ => some (sec ++ [46] ++ key)
    | some ⟨sec, some sub⟩ => some (sec ++ [46] ++ sub ++ [46] ++ key)

/-- Spec-side characterisation of the section character set: an ASCII
letter, an ASCII digit, or the hyphen. -/
def specSectionChar (c : Nat) : Prop :=
  (65 ≤ c ∧ c ≤ 90) ∨ (97 ≤ c ∧ c ≤ 122) ∨ (48 ≤ c ∧ c ≤ 57) ∨ c = 45

theorem isKeyChar_iff_specSectionChar (c : Nat) :
    isKeyChar c = true ↔ specSectionChar c := by
  by_cases hc : c ≤ 122
  · interval_cases c <;> simp [isKeyChar, isAlpha, specSectionChar] <;> decide
  · have h32 : c &&& 32 ≤ 32 := Nat.and_le_right
    have hd : 91 ≤ c - (c &&& 32) := by omega
    constructor
    · intro h
      exfalso
      simp only [isKeyChar, isAlpha, Bool.or_eq_true, decide_eq_true_eq] at h
      omega
    · intro h
      exfalso
      rcases h with h | h | h | h <;> omega

theorem ValidIniSection_iff (s : Bytes) :
    ValidIniSection s = true ↔ (s ≠ [] ∧ ∀ c ∈ s, specSectionChar c) := by
  simp only [ValidIniSection, Bool.and_eq_true, decide_eq_true_eq, List.all_eq_true]
  constructor
  · rintro ⟨h1, h2⟩
    exact ⟨h1, fun c hc => (isKeyChar_iff_specSectionChar c).mp (h2 c hc)⟩
  · rintro ⟨h1, h2⟩
    exact ⟨h1, fun c hc => (isKeyChar_iff_specSectionChar c).mpr (h2 c hc)⟩

/-- Claim C8: ValidIniSection holds exactly for the non-empty strings of
ASCII letters, digits and hyphens; in particular the empty string is not
a valid section, and the rendering of a real (non-nil) section never
collides with the empty rendering of the absent/preamble section. -/
theorem claim_C8_valid_section :
    (∀ s : Bytes, ValidIniSection s = true ↔ (s ≠ [] ∧ ∀ c ∈ s, specSectionChar c)) ∧
    ValidIniSection [] = false ∧
    (∀ s : IniSection, sectionBytes (some s) ≠ some []) ∧
    sectionBytes none = some [] := by
  refine ⟨ValidIniSection_iff, by decide, ?_, rfl⟩
  intro s h
  rcases s with ⟨sec, sub⟩
  cases sub with
  | none => simp [sectionBytes] at h
  | some sub =>
    simp only [sectionBytes] at h
    cases hsub : subEscape sub with
    | none => rw [hsub] at h; simp at h
    | some e => rw [hsub] at h; simp at h

structure position where
  index : Nat
  lineno : Nat
  colno : Nat
deriving DecidableEq, Repr

/-- State of the Go iniParse value: cursor position, the whole input, the
file name used in error messages, the current section, and the end offset
of the previous statement.  The hook closures are passed separately. -/
structure Lexer where
  index : Nat
  lineno : Nat
  colno : Nat
  input : Bytes
  file : Bytes
  sec : Option IniSection
  prevEnd : Nat
deriving DecidableEq, Repr

def Lexer.pos (l : Lexer) : position := ⟨l.index, l.lineno, l.colno⟩

/-- Go peek: the byte under the cursor, none for the EOF sentinel. -/
def Lexer.peek (l : Lexer) : Option Nat := l.input[l.index]?

/-- Go at(n): bounded lookahead.  The Go bounds check uses > instead of >=,
so reading exactly at the end of the input indexes one past the last byte
and panics at run time; that panic is the error case here. -/
def Lexer.atN (l : Lexer) (n : Nat) : Except Unit (Option Nat) :=
  let m := l.index + n
  if m > l.input.length then .ok none
  else if m = l.input.length then .error ()
  else .ok l.input[m]?

/-- One step of Go skip: advance over a single byte, maintaining the
line number and the tab-aware column (tab stops of width 8); at the end
of the input this is the identity, which gives skip its clamping
behavior. -/
def Lexer.skip1 (l : Lexer) : Lexer :=
  match l.input[l.index]? with
  | none => l
  | some b =>
    if b = 10 then { l with index := l.index + 1, lineno := l.lineno + 1, colno := 0 }
    else if b = 9 then { l with index := l.index + 1, colno := l.colno + (8 - l.colno % 8) }
    else { l with index := l.index + 1, colno := l.colno + 1 }

def Lexer.skip : Lexer → Nat → Lexer
  | l, 0 => l
  | l, n + 1 => Lexer.skip l.skip1 n

def Lexer.remaining (l : Lexer) : Nat := l.input.length - l.index

/-- Go match: literal match of text at the cursor. -/
def Lexer.matchStr (l : Lexer) (text : Bytes) : Bool × Lexer :=
  if l.remaining ≥ text.length ∧ (l.input.drop l.index).take text.length = text then
    (true, l.skip text.length)
  else (false, l)

/-- Go skipWhile: skip bytes satisfying fn, reporting whether any were
skipped. -/
def Lexer.skipWhile (l : Lexer) (fn : Nat → Bool) : Bool × Lexer :=
  let t := (l.input.drop l.index).takeWhile fn
  (decide (0 < t.length), l.skip t.length)

/-- Go takeWhile: the skipped bytes themselves. -/
def Lexer.takeWhileB (l : Lexer) (fn : Nat → Bool) : Bytes × Lexer :=
  let t := (l.input.drop l.index).takeWhile fn
  (t, l.skip t.length)

/-- Go skipTo: move the cursor to the next occurrence of byte c (not past
it), or to the end of the input when there is none. -/
def Lexer.skipTo (l : Lexer) (c : Nat) : Bool × Lexer :=
  match (l.input.drop l.index).findIdx? (fun b => b == c) with
  | some i => (true, l.skip i)
  | none => (false, l.skip l.remaining)

/-- Go skipWS: space, tab and carriage return are horizontal whitespace. -/
def Lexer.skipWS (l : Lexer) : Bool × Lexer :=
  l.skipWhile (fun r => decide (r = 32 ∨ r = 9 ∨ r = 13))

structure ParseError where
  File : Bytes
  Lineno : Nat
  Colno : Nat
  Msg : Bytes
deriving DecidableEq, Repr

/-- Go throwAt: build the ParseError for a recorded position (line and
column are reported 1-based). -/
def mkParseError (file : Bytes) (p : position) (msg : Bytes) : ParseError :=
  ⟨file, p.lineno + 1, p.colno + 1, msg⟩

/-- The three ways a statement parse can abort: a thrown ParseError
(recovered by the statement loop), a Go runtime panic that is not a
ParseError (crashes the whole parse), and fuel exhaustion (an artifact of
the fueled loops, proved unreachable). -/
inductive Abort where
  | parse (e : ParseError)
  | crash
  | fuelOut
deriving DecidableEq, Repr

/-- The value-grammar loop of Go getValue, one fuel unit per iteration.
acc is the value built so far, escape and inquote are the two scanner
flags. -/
def getValueFuel : Nat → Lexer → Bytes → Bool → Bool →
    Except (Abort × Lexer) (Bytes × Lexer)
  | 0, l, _, _, _ => .error (.fuelOut, l)
  | fuel + 1, l, acc, escape, inquote =>
    let c? := l.peek
    if escape then
      if c? = some 34 then getValueFuel fuel (l.skip 1) (acc ++ [34]) false inquote
      else if c? = some 92 then getValueFuel fuel (l.skip 1) (acc ++ [92]) false inquote
      else if c? = some 110 then getValueFuel fuel (l.skip 1) (acc ++ [10]) false inquote
      else if c? = some 116 then getValueFuel fuel (l.skip 1) (acc ++ [9]) false inquote
      else if c? = some 98 then getValueFuel fuel (l.skip 1) (acc ++ [8]) false inquote
      else if c? = some 10 then getValueFuel fuel (l.skip 1) acc false inquote
      else if c? = some 13 then
        match l.atN 1 with
        | .error _ => .error (.crash, l)
        | .ok nx =>
          if nx = some 10 then getValueFuel fuel ((l.skip 1).skip 1) acc false inquote
          else
            .error (.parse (mkParseError l.file l.pos
              (bstr "invalid escape sequence \\" ++ [13])), l)
      else if c? = none then
        .error (.parse (mkParseError l.file l.pos
          (bstr "incomplete escape sequence at EOF")), l)
      else
        .error (.parse (mkParseError l.file l.pos
          (bstr "invalid escape sequence \\" ++ c?.toList)), l)
    else
      if c? = some 92 then getValueFuel fuel (l.skip 1) acc true inquote
      else if c? = some 34 then getValueFuel fuel (l.skip 1) acc false (!inquote)
      else if c? = some 10 ∨ c? = none then
        if inquote then
          .error (.parse (mkParseError l.file l.pos (bstr "missing close quotes")), l)
        else .ok (acc, l.skip 1)
      else if c? = some 13 then
        match l.atN 1 with
        | .error _ => .error (.crash, l)
        | .ok nx =>
          if nx = some 10 then
            let l1 := l.skip 1
            if inquote then
              .error (.parse (mkParseError l1.file l1.pos (bstr "missing close quotes")), l1)
            else .ok (acc, l1.skip 1)
          else getValueFuel fuel (l.skip 1) (acc ++ [13]) false inquote
      else if (!inquote) = true ∧ (c? = some 35 ∨ c? = some 59) then
        getValueFuel fuel (((l.skipTo 10).2).skip 1) acc false inquote
      else getValueFuel fuel (l.skip 1) (acc ++ c?.toList) false inquote

/-- Go getValue, with enough fuel for the whole remaining input. -/
def Lexer.getValue (l : Lexer) : Except (Abort × Lexer) (Bytes × Lexer) :=
  getValueFuel (l.input.length + 1 - l.index) l [] false false

/-- End test of the Go getSubsection loop: examine the byte at offset i.
When the loop walked past the end of the input this reads input[len]
(a Go runtime panic, the crash case); otherwise the subsection is
accepted exactly when that byte is the closing double quote. -/
def subEnd (inp : Bytes) (i : Nat) (acc : Bytes) :
    Except Abort (Option (Bytes × Nat)) :=
  match inp[i]? with
  | none => .error .crash
  | some b => if b = 34 then .ok (some (acc, i)) else .ok none

/-- The scan loop of Go getSubsection: i walks the input while i+1 is in
bounds; a close quote breaks out, NUL or newline rejects, a backslash
consumes the following byte (kept only when it is a backslash or a
quote), anything else is kept. -/
def subLoopF : Nat → Bytes → Nat → Bytes → Except Abort (Option (Bytes × Nat))
  | 0, _, _, _ => .error .fuelOut
  | fuel + 1, inp, i, acc =>
    if i + 1 < inp.length then
      match inp[i]? with
      | none => .error .crash
      | some c =>
        if c = 34 then subEnd inp i acc
        else if c = 0 ∨ c = 10 then .ok none
        else if c = 92 then
          match inp[i + 1]? with
          | none => .error .crash
          | some nc =>
            subLoopF fuel inp (i + 2) (if nc = 92 ∨ nc = 34 then acc ++ [nc] else acc)
        else subLoopF fuel inp (i + 1) (acc ++ [c])
    else subEnd inp i acc

/-- Go getSubsection: nil (none) unless the cursor sits on a double quote
with at least two bytes remaining; on success the cursor moves past the
closing quote. -/
def Lexer.getSubsection (l : Lexer) : Except Abort (Option (Bytes × Lexer)) :=
  if l.remaining < 2 ∨ l.peek ≠ some 34 then .ok none
  else
    match subLoopF (l.input.length + 1) l.input (l.index + 1) [] with
    | .error a => .error a
    | .ok none => .ok none
    | .ok (some (s, i)) => .ok (some (s, l.skip (i + 1 - l.index)))

/-- Go getSection: nil (none) when the cursor is not on an opening
bracket; afterwards any malformation raises a ParseError. -/
def Lexer.getSection (l : Lexer) :
    Except (Abort × Lexer) (Option (IniSection × Lexer)) :=
  match l.matchStr [91] with
  | (false, _) => .ok none
  | (true, l1) =>
    let (name, l2) := l1.takeWhileB isKeyChar
    if name.length = 0 then
      .error (.parse (mkParseError l2.file l2.pos
        (bstr "expected section name after '['")), l2)
    else
      match l2.matchStr [93] with
      | (true, l3) => .ok (some (⟨name, none⟩, l3))
      | (false, _) =>
        match l2.skipWS with
        | (false, l3) =>
          .error (.parse (mkParseError l3.file l3.pos
            (bstr "expected ']' or space followed by quoted subsection")), l3)
        | (true, l3) =>
          match l3.getSubsection with
          | .error a => .error (a, l3)
          | .ok none =>
            .error (.parse (mkParseError l3.file l3.pos
              (bstr "expected quoted subsection after space")), l3)
          | .ok (some (sub, l4)) =>
            match l4.matchStr [93] with
            | (false, _) =>
              .error (.parse (mkParseError l4.file l4.pos (bstr "expected ']'")), l4)
            | (true, l5) => .ok (some (⟨name, some sub⟩, l5))

structure IniRange where
  StartIndex : Nat
  EndIndex : Nat
  PrevEndIndex : Nat
  Input : Bytes
deriving DecidableEq, Repr

/-- Go getRange: the statement range from startIdx to the cursor, carrying
the previous statement end, and advancing prevEnd to the cursor. -/
def Lexer.getRange (l : Lexer) (startIdx : Nat) : IniRange × Lexer :=
  (⟨startIdx, l.index, l.prevEnd, l.input⟩, { l with prevEnd := l.index })

structure IniItem where
  sec : Option IniSection
  Key : Bytes
  Value : Option Bytes
  range : IniRange
deriving DecidableEq, Repr

structure IniSecStart where
  sec : IniSection
  range : IniRange
deriving DecidableEq, Repr

/-- An error returned by a sink hook: BadKey is reported at the key
position, anything else at the value position.  The payload is the
rendered Error() string. -/
inductive GoError where
  | badKey (m : Bytes)
  | badValue (m : Bytes)
  | generic (m : Bytes)
deriving DecidableEq, Repr

def GoError.msg : GoError → Bytes
  | badKey m => m
  | badValue m => m
  | generic m => m

/-- An IniSink with the optional hooks resolved (Go newParser installs
no-op defaults when a hook is missing).  Hooks may mutate the sink state,
return an error, or panic (none). -/
structure IniSink (σ : Type) where
  item : σ → IniItem → Option (σ × Option GoError)
  sec : σ → IniSecStart → Option (σ × Option GoError)
  done : σ → IniRange → Option σ
  init : σ → σ

def isAlphaOpt : Option Nat → Bool
  | none => false
  | some c => isAlpha c

/-- Tail of the section branch of Go do1, after getSection succeeded:
consume trailing whitespace and an optional newline, make the section
current, and fire the Section hook; a hook error is reported at the key
position. -/
def sectionStmt {σ : Type} (sink : IniSink σ) (st : σ) (startindex : Nat)
    (keypos : position) (sec : IniSection) (l2 : Lexer) :
    Except (Abort × σ × Lexer) (σ × Lexer) :=
  let l3 := (l2.skipWS).2
  let l4 := (l3.matchStr [10]).2
  let l5 := { l4 with sec := some sec }
  let (r, l6) := l5.getRange startindex
  match sink.sec st ⟨sec, r⟩ with
  | none => .error (.crash, st, l6)
  | some (st', some e) =>
    .error (.parse (mkParseError l6.file keypos e.msg), st', l6)
  | some (st', none) => .ok (st', l6)

/-- Tail of the key branch of Go do1: fire the Item hook; a BadKey error
points at the key position, any other hook error at the value
position. -/
def finishItem {σ : Type} (sink : IniSink σ) (st : σ) (startindex : Nat)
    (keypos : position) (k : Bytes) (v : Option Bytes) (valpos : position)
    (l6 : Lexer) : Except (Abort × σ × Lexer) (σ × Lexer) :=
  let (r, l7) := l6.getRange startindex
  match sink.item st ⟨l6.sec, k, v, r⟩ with
  | none => .error (.crash, st, l7)
  | some (st', some (GoError.badKey m)) =>
    .error (.parse (mkParseError l7.file keypos m), st', l7)
  | some (st', some e) =>
    .error (.parse (mkParseError l7.file valpos e.msg), st', l7)
  | some (st', none) => .ok (st', l7)

/-- Key branch of Go do1: parse the key; without an = sign the rest of
the line must be blank or comment (the item then has a nil value), with
an = sign the value grammar runs. -/
def keyStmt {σ : Type} (sink : IniSink σ) (st : σ) (startindex : Nat)
    (keypos : position) (l1 : Lexer) :
    Except (Abort × σ × Lexer) (σ × Lexer) :=
  let (k, l2) := l1.takeWhileB isKeyChar
  let l3 := (l2.skipWS).2
  match l3.matchStr [61] with
  | (false, _) =>
    if l3.peek ≠ some 10 ∧ l3.peek ≠ some 35 ∧ l3.peek ≠ some 59 ∧ l3.peek ≠ none then
      .error (.parse (mkParseError l3.file l3.pos
        (bstr "Expected '=' after " ++ k)), st, l3)
    else
      let valpos := l3.pos
      let l4 := match l3.skipTo 10 with
                | (true, lt) => lt.skip 1
                | (false, lt) => lt
      finishItem sink st startindex keypos k none valpos l4
  | (true, l4) =>
    let l5 := (l4.skipWS).2
    let valpos := l5.pos
    match l5.getValue with
    | .error (a, le) => .error (a, st, le)
    | .ok (v, l6) => finishItem sink st startindex keypos k (some v) valpos l6

/-- The body of Go do1 (one statement), before the deferred recover.
Raised ParseErrors, runtime panics and fuel exhaustion travel in the
error channel together with the sink state and lexer at the point of the
throw. -/
def do1body {σ : Type} (sink : IniSink σ) (st : σ) (l : Lexer) :
    Except (Abort × σ × Lexer) (σ × Lexer) :=
  let startindex := l.index
  let l1 := (l.skipWS).2
  let keypos := l1.pos
  match l1.getSection with
  | .error (a, le) => .error (a, st, le)
  | .ok (some (sec, l2)) => sectionStmt sink st startindex keypos sec l2
  | .ok none =>
    if isAlphaOpt l1.peek then keyStmt sink st startindex keypos l1
    else
      match l1.peek with
      | some 35 => .ok (st, (((l1.skipTo 10).2).skip 1))
      | some 59 => .ok (st, (((l1.skipTo 10).2).skip 1))
      | some 10 => .ok (st, (((l1.skipTo 10).2).skip 1))
      | _ =>
        .error (.parse (mkParseError l1.file l1.pos
          (bstr "Expected section or key")), st, l1)

inductive Do1Out (σ : Type) where
  | ok (e : Option ParseError) (st : σ) (l : Lexer)
  | crashed (st : σ) (l : Lexer)
  | fuelOut
deriving DecidableEq, Repr

/-- Go do1 with its deferred recover: a thrown ParseError is returned and
the cursor is advanced to the next newline; any other panic is
re-raised. -/
def do1 {σ : Type} (sink : IniSink σ) (st : σ) (l : Lexer) : Do1Out σ :=
  match do1body sink st l with
  | .ok (st', l') => .ok none st' l'
  | .error (.parse pe, st', le) => .ok (some pe) st' ((le.skipTo 10).2)
  | .error (.crash, st', le) => .crashed st' le
  | .error (.fuelOut, _, _) => .fuelOut

inductive ParseOutcome (σ : Type) where
  | crashed
  | fuelOut
  | done (err : Option (List ParseError)) (st : σ) (l : Lexer) (iters : Nat)
deriving DecidableEq, Repr

/-- The statement loop of Go do, with the recorded errors, plus the final
Done hook with the trailing range.  iters counts loop iterations. -/
def doLoopF {σ : Type} (sink : IniSink σ) :
    Nat → σ → Lexer → List ParseError → Nat → ParseOutcome σ
  | fuel, st, l, errs, n =>
    if l.index < l.input.length then
      match fuel with
      | 0 => .fuelOut
      | fuel + 1 =>
        match do1 sink st l with
        | .ok e st' l' => doLoopF sink fuel st' l' (errs ++ e.toList) (n + 1)
        | .crashed _ _ => .crashed
        | .fuelOut => .fuelOut
    else
      let (r, l') := l.getRange l.index
      match sink.done st r with
      | none => .crashed
      | some st' => .done (if errs.isEmpty then none else some errs) st' l' n

/-- Go IniParseContents: run the optional Init hook, then the statement
loop from a fresh lexer.  A nil error result (no recorded errors) is
err = none. -/
def IniParseContents {σ : Type} (sink : IniSink σ) (st : σ)
    (filename : Bytes) (contents : Bytes) : ParseOutcome σ :=
  doLoopF sink contents.length (sink.init st)
    ⟨0, 0, 0, contents, filename, none, 0⟩ [] 0

/-- A sink with only the mandatory Item callback, always succeeding, as
Go newParser builds for a consumer without the optional hooks. -/
def nullSink : IniSink Unit :=
  { item := fun _ _ => some ((), none)
    sec := fun _ _ => some ((), none)
    done := fun s _ => some s
    init := id }

/- The Go IniEditor keeps its fragments in a container/list and stores
element pointers in its two maps.  Here the fragment sequence is a list
of (handle, bytes) pairs where handles are allocated from a counter and
never reused, so handle equality coincides with Go pointer identity; the
maps are association lists.  Operations that dereference a handle that is
no longer (or never was) in the sequence correspond to Go panics and
return none. -/
structure IniEditor where
  fragments : List (Nat × Bytes)
  nextId : Nat
  secEnd : List (Bytes × Option Nat)
  values : List (Bytes × List (Option Nat))
  lastSec : Option IniSection
deriving DecidableEq, Repr

def assocLookup {α : Type} (m : List (Bytes × α)) (k : Bytes) : Option α :=
  match m with
  | [] => none
  | (k', v) :: t => if k' = k then some v else assocLookup t k

def assocSet {α : Type} (m : List (Bytes × α)) (k : Bytes) (v : α) : List (Bytes × α) :=
  match m with
  | [] => [(k, v)]
  | (k', v') :: t => if k' = k then (k, v) :: t else (k', v') :: assocSet t k v

def assocDelete {α : Type} (m : List (Bytes × α)) (k : Bytes) : List (Bytes × α) :=
  match m with
  | [] => []
  | (k', v') :: t => if k' = k then t else (k', v') :: assocDelete t k

def fragIds (fs : List (Nat × Bytes)) : List Nat := fs.map Prod.fst

def IniEditor.pushBack (ed : IniEditor) (v : Bytes) : Nat × IniEditor :=
  (ed.nextId,
   { ed with fragments := ed.fragments ++ [(ed.nextId, v)], nextId := ed.nextId + 1 })

def insertAfterH : List (Nat × Bytes) → Nat → (Nat × Bytes) → Option (List (Nat × Bytes))
  | [], _, _ => none
  | f :: fs, mark, nv =>
    if f.1 = mark then some (f :: nv :: fs)
    else (insertAfterH fs mark nv).map (f :: ·)

def insertBeforeH : List (Nat × Bytes) → Nat → (Nat × Bytes) → Option (List (Nat × Bytes))
  | [], _, _ => none
  | f :: fs, mark, nv =>
    if f.1 = mark then some (nv :: f :: fs)
    else (insertBeforeH fs mark nv).map (f :: ·)

def IniEditor.insertAfter (ed : IniEditor) (mark : Nat) (v : Bytes) :
    Option (Nat × IniEditor) :=
  (insertAfterH ed.fragments mark (ed.nextId, v)).map
    (fun fs => (ed.nextId, { ed with fragments := fs, nextId := ed.nextId + 1 }))

def IniEditor.insertBefore (ed : IniEditor) (mark : Nat) (v : Bytes) :
    Option (Nat × IniEditor) :=
  (insertBeforeH ed.fragments mark (ed.nextId, v)).map
    (fun fs => (ed.nextId, { ed with fragments := fs, nextId := ed.nextId + 1 }))

/-- Go fragments.Remove of an element handle; removing a handle that is
absent is a no-op, as in Go where Remove of an already removed element
does nothing. -/
def removeH (fs : List (Nat × Bytes)) (h : Nat) : List (Nat × Bytes) :=
  fs.filter (fun f => decide (f.1 ≠ h))

/-- Remove a list of stored element handles in order; a stored nil
element (none) is dereferenced by Go Remove and panics. -/
def removeAllH : List (Option Nat) → List (Nat × Bytes) → Option (List (Nat × Bytes))
  | [], fs => some fs
  | none :: _, _ => none
  | some h :: t, fs => removeAllH t (removeH fs h)

/-- Go (*IniEditor).appendItem: push the gap fragment
[PrevEndIndex,StartIndex) when non-empty and the statement fragment
[StartIndex,EndIndex) when non-empty; returns (e1, e2) where e1 falls
back to e2 when there was no gap. -/
def IniEditor.appendItem (ed : IniEditor) (r : IniRange) :
    Option Nat × Option Nat × IniEditor :=
  let g1 :=
    if r.StartIndex > r.PrevEndIndex then
      let (h, ed') := ed.pushBack ((r.Input.drop r.PrevEndIndex).take (r.StartIndex - r.PrevEndIndex))
      (some h, ed')
    else (none, ed)
  let g2 :=
    if r.EndIndex > r.StartIndex then
      let (h, ed') := g1.2.pushBack ((r.Input.drop r.StartIndex).take (r.EndIndex - r.StartIndex))
      (some h, ed')
    else (none, g1.2)
  (if g1.1 = none then g2.1 else g1.1, g2.1, g2.2)

/-- Go (*IniEditor).Section hook: append the gap and header fragments,
record the insertion point of the previous section under its string
signature, and make this section current. -/
def edSectionHook (ed : IniEditor) (ss : IniSecStart) : Option (IniEditor × Option GoError) :=
  match sectionBytes ed.lastSec with
  | none => none
  | some sig =>
    let (e1, _, ed1) := ed.appendItem ss.range
    some ({ ed1 with secEnd := assocSet ed1.secEnd sig e1, lastSec := some ss.sec }, none)

/-- Go (*IniEditor).Item hook: append the gap and item fragments and
register the item fragment under its qualified key. -/
def edItemHook (ed : IniEditor) (ii : IniItem) : Option (IniEditor × Option GoError) :=
  match IniQKey ii.sec ii.Key with
  | none => none
  | some k =>
    let (_, e2, ed1) := ed.appendItem ii.range
    some ({ ed1 with
            values := assocSet ed1.values k ((assocLookup ed1.values k).getD [] ++ [e2]) },
          none)

/-- Go (*IniEditor).Done hook: append the trailing gap (or an empty
fragment when there is none), finalize the last section insertion point,
and clear the current section. -/
def edDoneHook (ed : IniEditor) (r : IniRange) : Option IniEditor :=
  let (e1, _, ed1) := ed.appendItem r
  let he :=
    match e1 with
    | some h => (h, ed1)
    | none => ed1.pushBack []
  match sectionBytes ed1.lastSec with
  | none => none
  | some sig =>
    some { he.2 with secEnd := assocSet he.2.secEnd sig (some he.1), lastSec := none }

def edSink : IniSink IniEditor :=
  { item := edItemHook, sec := edSectionHook, done := edDoneHook, init := id }

def emptyEditor : IniEditor := ⟨[], 0, [], [], none⟩

/-- Go NewIniEdit: parse the contents into a fresh editor. -/
def NewIniEdit (filename contents : Bytes) : ParseOutcome IniEditor :=
  IniParseContents edSink emptyEditor filename contents

/-- Go (*IniEditor).String / WriteTo: the fragments concatenated in
sequence order. -/
def IniEditor.toBytes (ed : IniEditor) : Bytes := (ed.fragments.map Prod.snd).flatten

/-- Go needQuotes: a value needs quoting when it starts with a space or
tab, or contains a control byte, DEL or a non-ASCII byte, or one of
double quote, hash, semicolon, backslash. -/
def needQuotes (val : Bytes) : Bool :=
  match val with
  | [] => false
  | c :: _ =>
    if c = 32 ∨ c = 9 then true
    else val.any (fun b => decide (b < 32 ∨ 127 ≤ b ∨ b = 34 ∨ b = 35 ∨ b = 59 ∨ b = 92))

/-- The per-byte rendering inside quotes in Go EscapeIniValue. -/
def escByte (b : Nat) : Bytes :=
  if b = 34 ∨ b = 92 then [92, b]
  else if b = 8 then [92, 98]
  else if b = 10 then [92, 110]
  else if b = 9 then [92, 116]
  else [b]

/-- Go EscapeIniValue. -/
def EscapeIniValue (val : Bytes) : Bytes :=
  if needQuotes val then [34] ++ (val.map escByte).flatten ++ [34] else val

/-- Go iniLine: tab, key, " = ", escaped value, newline. -/
def iniLine (key value : Bytes) : Bytes :=
  [9] ++ key ++ bstr " = " ++ EscapeIniValue value ++ [10]

/-- Go (*IniEditor).newItem: find or synthesize the section insertion
marker, insert the new key line just before it, and register it. -/
def IniEditor.newItem (ed : IniEditor) (is : Option IniSection) (key value : Bytes) :
    Option (Nat × IniEditor) :=
  match sectionBytes is with
  | none => none
  | some ss =>
    let marker : Option (Nat × IniEditor) :=
      match assocLookup ed.secEnd ss with
      | some (some e) => some (e, ed)
      | some none => none
      | none =>
        let ssb := ss ++ [10]
        let hEd :=
          match ed.fragments.getLast? with
          | some (lid, lv) =>
            if lv = [] then (lid, { ed with fragments := ed.fragments.dropLast ++ [(lid, ssb)] })
            else ed.pushBack ssb
          | none => ed.pushBack ssb
        match hEd.2.insertAfter hEd.1 [] with
        | none => none
        | some (e2, ed2) => some (e2, { ed2 with secEnd := assocSet ed2.secEnd ss (some e2) })
    match marker with
    | none => none
    | some (e, ed') =>
      match ed'.insertBefore e (iniLine key value) with
      | none => none
      | some (en, ed'') =>
        match IniQKey is key with
        | none => none
        | some k =>
          some (en, { ed'' with
            values := assocSet ed''.values k ((assocLookup ed''.values k).getD [] ++ [some en]) })

/-- Go (*IniEditor).Del: remove every indexed fragment of the qualified
key and drop the index entry. -/
def IniEditor.Del (ed : IniEditor) (is : Option IniSection) (key : Bytes) :
    Option IniEditor :=
  match IniQKey is key with
  | none => none
  | some k =>
    match removeAllH ((assocLookup ed.values k).getD []) ed.fragments with
    | none => none
    | some fs => some { ed with fragments := fs, values := assocDelete ed.values k }

/-- Go (*IniEditor).Set: with existing realizations, insert the new line
after the last one, point the index at it alone, then remove the old
elements; otherwise create a fresh item. -/
def IniEditor.Set (ed : IniEditor) (is : Option IniSection) (key value : Bytes) :
    Option IniEditor :=
  match IniQKey is key with
  | none => none
  | some k =>
    let vs := (assocLookup ed.values k).getD []
    if vs.length > 0 then
      match vs.getLast? with
      | none => none
      | some none => none
      | some (some last) =>
        match ed.insertAfter last (iniLine key value) with
        | none => none
        | some (en, ed1) =>
          let ed2 := { ed1 with values := assocSet ed1.values k [some en] }
          match removeAllH vs ed2.fragments with
          | none => none
          | some fs => some { ed2 with fragments := fs }
    else (ed.newItem is key value).map Prod.snd

/-- Go (*IniEditor).Add: with existing realizations, insert the new line
after the last one and append it to the index entry; otherwise create a
fresh item. -/
def IniEditor.Add (ed : IniEditor) (is : Option IniSection) (key value : Bytes) :
    Option IniEditor :=
  match IniQKey is key with
  | none => none
  | some k =>
    let vs := (assocLookup ed.values k).getD []
    if vs.length > 0 then
      match vs.getLast? with
      | none => none
      | some none => none
      | some (some last) =>
        (ed.insertAfter last (iniLine key value)).map
          (fun p => { p.2 with values := assocSet p.2.values k (vs ++ [some p.1]) })
    else (ed.newItem is key value).map Prod.snd

/- Go IniEdits is a slice of closures over *IniEditor; each closure is one
of the three operations with its captured arguments (the section pointer
Go captures is never nil). -/
inductive EditOp where
  | del (s : IniSection) (k : Bytes)
  | set (s : IniSection) (k v : Bytes)
  | add (s : IniSection) (k v : Bytes)
deriving DecidableEq, Repr

def EditOp.run : EditOp → IniEditor → Option IniEditor
  | .del s k, ed => ed.Del (some s) k
  | .set s k v, ed => ed.Set (some s) k v
  | .add s k v, ed => ed.Add (some s) k v

inductive EditErr where
  | invalidNumArgs
  | invalidSection
deriving DecidableEq, Repr

/-- Go (*IniEdits).Del: 1 arg is a key, 2 args are subsection and key;
any other count is ErrInvalidNumArgs; an invalid section is
ErrInvalidSection; a valid call appends the closure. -/
def IniEditsDel (ie : List EditOp) (sec : Bytes) (args : List Bytes) :
    Option EditErr × List EditOp :=
  match args with
  | [k] =>
    if (IniSection.mk sec none).ValidB then (none, ie ++ [.del ⟨sec, none⟩ k])
    else (some .invalidSection, ie)
  | [sub, k] =>
    if (IniSection.mk sec (some sub)).ValidB then (none, ie ++ [.del ⟨sec, some sub⟩ k])
    else (some .invalidSection, ie)
  | _ => (some .invalidNumArgs, ie)

/-- Go (*IniEdits).Add: 2 args are key and value, 3 args add a
subsection. -/
def IniEditsAdd (ie : List EditOp) (sec : Bytes) (args : List Bytes) :
    Option EditErr × List EditOp :=
  match args with
  | [k, v] =>
    if (IniSection.mk sec none).ValidB then (none, ie ++ [.add ⟨sec, none⟩ k v])
    else (some .invalidSection, ie)
  | [sub, k, v] =>
    if (IniSection.mk sec (some sub)).ValidB then (none, ie ++ [.add ⟨sec, some sub⟩ k v])
    else (some .invalidSection, ie)
  | _ => (some .invalidNumArgs, ie)

/-- Go (*IniEdits).Set: same argument convention as Add. -/
def IniEditsSet (ie : List EditOp) (sec : Bytes) (args : List Bytes) :
    Option EditErr × List EditOp :=
  match args with
  | [k, v] =>
    if (IniSection.mk sec none).ValidB then (none, ie ++ [.set ⟨sec, none⟩ k v])
    else (some .invalidSection, ie)
  | [sub, k, v] =>
    if (IniSection.mk sec (some sub)).ValidB then (none, ie ++ [.set ⟨sec, some sub⟩ k v])
    else (some .invalidSection, ie)
  | _ => (some .invalidNumArgs, ie)

/-- Run queued operations in append order; a Go panic in any operation
propagates (none). -/
def applyOps : List EditOp → IniEditor → Option IniEditor
  | [], ed => some ed
  | op :: t, ed => (op.run ed).bind (applyOps t)

/-- Go (*IniEdits).Apply: run every queued operation in order against the
target, then clear the batch (the clearing does not happen when an
operation panics). -/
def IniEditsApply (ie : List EditOp) (target : IniEditor) :
    Option (IniEditor × List EditOp) :=
  (applyOps ie target).map (fun t => (t, []))

theorem IniQKey_none_of_bad_key (s : Option IniSection) (key : Bytes)
    (h : ValidIniKey key = false) : IniQKey s key = none := by
  unfold IniQKey
  cases hs : sectionValid s <;> simp [hs, h]

theorem applyOps_append (ops1 ops2 : List EditOp) (ed : IniEditor) :
    applyOps (ops1 ++ ops2) ed = (applyOps ops1 ed).bind (applyOps ops2) := by
  induction ops1 generalizing ed with
  | nil => simp [applyOps]
  | cons op t ih =>
    cases h : op.run ed with
    | none => simp [applyOps, h]
    | some ed' => simp [applyOps, h, ih]

/-- Claim C5 (counterexample): parsing "= foo\n" yields exactly one error
at line 1, column 1, but its message is "Expected section or key" with a
capital E, not the "expected section or key" the claim states. -/
theorem claim_C5_counterexample :
    IniParseContents nullSink () [] (bstr "= foo\n") =
      .done (some [{ File := [], Lineno := 1, Colno := 1,
                     Msg := bstr "Expected section or key" }]) ()
        { index := 6, lineno := 1, colno := 0, input := bstr "= foo\n",
          file := [], sec := none, prevEnd := 6 } 2 ∧
    bstr "Expected section or key" ≠ bstr "expected section or key" := by
  constructor
  · decide
  · decide

/-- Claim C5 (amended): parsing "= foo\n" produces exactly one syntax
error, at line 1, column 1, with message "Expected section or key". -/
theorem claim_C5_one_error :
    IniParseContents nullSink () [] (bstr "= foo\n") =
      .done (some [{ File := [], Lineno := 1, Colno := 1,
                     Msg := bstr "Expected section or key" }]) ()
        { index := 6, lineno := 1, colno := 0, input := bstr "= foo\n",
          file := [], sec := none, prevEnd := 6 } 2 := by
  decide

/-- Claim C6: the input "a=x\r" refutes the claim that every fatal
condition is a recoverable structured parse error: the value scanner
calls at(1) with the cursor on a final carriage return, whose bounds
check is off by one, so the Go code indexes one past the input and
panics; the whole parse crashes instead of recovering and running to the
end of the input. -/
theorem claim_C6_crash_input :
    IniParseContents nullSink () [] (bstr "a=x\r") = .crashed ∧
    NewIniEdit [] (bstr "a=x\r") = .crashed := by
  constructor
  · decide
  · decide

/-- Claim C7: Edit-Script appends validate eagerly: a wrong argument
count yields ErrInvalidNumArgs and an invalid section or subsection
yields ErrInvalidSection, in both cases leaving the batch unchanged; a
valid call appends exactly one operation; Apply runs the queued
operations in append order and clears the batch. -/
theorem claim_C7_edit_script :
    (∀ b sec args, args.length ≠ 1 → args.length ≠ 2 →
        IniEditsDel b sec args = (some .invalidNumArgs, b)) ∧
    (∀ b sec args, args.length ≠ 2 → args.length ≠ 3 →
        IniEditsAdd b sec args = (some .invalidNumArgs, b) ∧
        IniEditsSet b sec args = (some .invalidNumArgs, b)) ∧
    (∀ b sec k, (IniSection.mk sec none).ValidB = false →
        IniEditsDel b sec [k] = (some .invalidSection, b)) ∧
    (∀ b sec sub k, (IniSection.mk sec (some sub)).ValidB = false →
        IniEditsDel b sec [sub, k] = (some .invalidSection, b)) ∧
    (∀ b sec k v, (IniSection.mk sec none).ValidB = false →
        IniEditsAdd b sec [k, v] = (some .invalidSection, b) ∧
        IniEditsSet b sec [k, v] = (some .invalidSection, b)) ∧
    (∀ b sec sub k v, (IniSection.mk sec (some sub)).ValidB = false →
        IniEditsAdd b sec [sub, k, v] = (some .invalidSection, b) ∧
        IniEditsSet b sec [sub, k, v] = (some .invalidSection, b)) ∧
    (∀ b sec k, (IniSection.mk sec none).ValidB = true →
        IniEditsDel b sec [k] = (none, b ++ [.del ⟨sec, none⟩ k])) ∧
    (∀ b sec sub k, (IniSection.mk sec (some sub)).ValidB = true →
        IniEditsDel b sec [sub, k] = (none, b ++ [.del ⟨sec, some sub⟩ k])) ∧
    (∀ b sec k v, (IniSection.mk sec none).ValidB = true →
        IniEditsAdd b sec [k, v] = (none, b ++ [.add ⟨sec, none⟩ k v]) ∧
        IniEditsSet b sec [k, v] = (none, b ++ [.set ⟨sec, none⟩ k v])) ∧
    (∀ b sec sub k v, (IniSection.mk sec (some sub)).ValidB = true →
        IniEditsAdd b sec [sub, k, v] = (none, b ++ [.add ⟨sec, some sub⟩ k v]) ∧
        IniEditsSet b sec [sub, k, v] = (none, b ++ [.set ⟨sec, some sub⟩ k v])) ∧
    (∀ ops1 ops2 ed, applyOps (ops1 ++ ops2) ed = (applyOps ops1 ed).bind (applyOps ops2)) ∧
    (∀ ops ed t, applyOps ops ed = some t → IniEditsApply ops ed = some (t, [])) := by
  refine ⟨?_, ?_, ?_, ?_, ?_, ?_, ?_, ?_, ?_, ?_, applyOps_append, ?_⟩
  · intro b sec args h1 h2
    match args with
    | [] => rfl
    | [k] => simp at h1
    | [a, b'] => simp at h2
    | a :: b' :: c :: t => rfl
  · intro b sec args h1 h2
    match args with
    | [] => exact ⟨rfl, rfl⟩
    | [k] => exact ⟨rfl, rfl⟩
    | [a, b'] => simp at h1
    | [a, b', c] => simp at h2
    | a :: b' :: c :: d :: t => exact ⟨rfl, rfl⟩
  · intro b sec k h; simp [IniEditsDel, h]
  · intro b sec sub k h; simp [IniEditsDel, h]
  · intro b sec k v h; simp [IniEditsAdd, IniEditsSet, h]
  · intro b sec sub k v h; simp [IniEditsAdd, IniEditsSet, h]
  · intro b sec k h; simp [IniEditsDel, h]
  · intro b sec sub k h; simp [IniEditsDel, h]
  · intro b sec k v h; simp [IniEditsAdd, IniEditsSet, h]
  · intro b sec sub k v h; simp [IniEditsAdd, IniEditsSet, h]
  · intro ops ed t h; simp [IniEditsApply, h]

theorem claim_C7_witness :
    IniEditsDel [] (bstr "a") [] = (some .invalidNumArgs, []) ∧
    IniEditsDel [] (bstr "a!") [bstr "k"] = (some .invalidSection, []) ∧
    IniEditsDel [] (bstr "a") [bstr "k"] = (none, [.del ⟨bstr "a", none⟩ (bstr "k")]) ∧
    IniEditsApply [.del ⟨bstr "a", none⟩ (bstr "k")] emptyEditor = some (emptyEditor, []) := by
  refine ⟨claim_C7_edit_script.1 [] (bstr "a") [] (by decide) (by decide),
          (claim_C7_edit_script.2.2.1 [] (bstr "a!") (bstr "k") (by decide)),
          (claim_C7_edit_script.2.2.2.2.2.2.1 [] (bstr "a") (bstr "k") (by decide)),
          claim_C7_edit_script.2.2.2.2.2.2.2.2.2.2.2
            [.del ⟨bstr "a", none⟩ (bstr "k")] emptyEditor emptyEditor (by decide)⟩

/-- Claim C9: Edit-Script appends never validate the key: with any
invalid key and a valid section the append succeeds and queues the
operation, every queued operation with that key panics (none) at Apply
time via IniQKey instead of returning an error, and a batch ending in
such an operation panics after running the earlier operations. -/
theorem claim_C9_key_not_validated :
    ∀ key, ValidIniKey key = false →
      (∀ b sec v, (IniSection.mk sec none).ValidB = true →
        IniEditsDel b sec [key] = (none, b ++ [.del ⟨sec, none⟩ key]) ∧
        IniEditsSet b sec [key, v] = (none, b ++ [.set ⟨sec, none⟩ key v]) ∧
        IniEditsAdd b sec [key, v] = (none, b ++ [.add ⟨sec, none⟩ key v])) ∧
      (∀ s ed v, EditOp.run (.del s key) ed = none ∧
        EditOp.run (.set s key v) ed = none ∧
        EditOp.run (.add s key v) ed = none) ∧
      (∀ pre s v ed, applyOps (pre ++ [.set s key v]) ed = none) := by
  intro key hk
  have hrun : ∀ (s : IniSection) (ed : IniEditor) (v : Bytes),
      EditOp.run (.del s key) ed = none ∧
      EditOp.run (.set s key v) ed = none ∧
      EditOp.run (.add s key v) ed = none := by
    intro s ed v
    refine ⟨?_, ?_, ?_⟩ <;>
      simp [EditOp.run, IniEditor.Del, IniEditor.Set, IniEditor.Add,
            IniQKey_none_of_bad_key _ _ hk]
  refine ⟨?_, hrun, ?_⟩
  · intro b sec v hs
    exact ⟨by simp [IniEditsDel, hs], by simp [IniEditsSet, hs], by simp [IniEditsAdd, hs]⟩
  · intro pre s v ed
    rw [applyOps_append]
    cases h : applyOps pre ed with
    | none => rfl
    | some ed1 => simp [applyOps, (hrun s ed1 v).2.1]

theorem claim_C9_witness :
    ValidIniKey (bstr "1bad") = false ∧
    IniEditsSet [] (bstr "sec") [bstr "1bad", bstr "v"] =
      (none, [.set ⟨bstr "sec", none⟩ (bstr "1bad") (bstr "v")]) ∧
    applyOps [.set ⟨bstr "sec", none⟩ (bstr "1bad") (bstr "v")] emptyEditor = none := by
  refine ⟨by decide, ?_, ?_⟩
  · exact ((claim_C9_key_not_validated (bstr "1bad") (by decide)).1
      [] (bstr "sec") (bstr "v") (by decide)).2.1
  · exact (claim_C9_key_not_validated (bstr "1bad") (by decide)).2.2
      [] ⟨bstr "sec", none⟩ (bstr "v") emptyEditor

theorem getLast?_mem_self {α : Type} {l : List α} {x : α}
    (h : l.getLast? = some x) : x ∈ l := by
  have hx : x ∈ l.getLast? := by rw [h]; rfl
  obtain ⟨hne, rfl⟩ := List.mem_getLast?_eq_getLast hx
  exact List.getLast_mem hne

theorem assocLookup_eq_none_iff {α : Type} (m : List (Bytes × α)) (k : Bytes) :
    assocLookup m k = none ↔ k ∉ m.map Prod.fst := by
  induction m with
  | nil => simp [assocLookup]
  | cons e t ih =>
    by_cases h : e.1 = k
    · simp [assocLookup, h]
    · simp [assocLookup, h, ih, Ne.symm h]

theorem assocDelete_of_lookup_none {α : Type} (m : List (Bytes × α)) (k : Bytes)
    (h : assocLookup m k = none) : assocDelete m k = m := by
  induction m with
  | nil => rfl
  | cons e t ih =>
    by_cases he : e.1 = k
    · simp [assocLookup, he] at h
    · simp only [assocLookup, he, if_neg] at h
      simp [assocDelete, he, ih h]

theorem assocLookup_assocSet_self {α : Type} (m : List (Bytes × α)) (k : Bytes) (v : α) :
    assocLookup (assocSet m k v) k = some v := by
  induction m with
  | nil => simp [assocSet, assocLookup]
  | cons e t ih =>
    by_cases he : e.1 = k
    · simp [assocSet, he, assocLookup]
    · simp [assocSet, he, assocLookup, ih]

theorem assocLookup_assocDelete_self {α : Type} (m : List (Bytes × α)) (k : Bytes)
    (hnd : (m.map Prod.fst).Nodup) : assocLookup (assocDelete m k) k = none := by
  induction m with
  | nil => rfl
  | cons e t ih =>
    simp only [List.map_cons, List.nodup_cons] at hnd
    by_cases he : e.1 = k
    · rw [assocDelete, if_pos he]
      exact (assocLookup_eq_none_iff t k).mpr (he ▸ hnd.1)
    · rw [assocDelete, if_neg he, assocLookup, if_neg he]
      exact ih hnd.2

theorem removeAllH_eq_filter (vs : List (Option Nat)) :
    (∀ h ∈ vs, h ≠ none) →
    ∀ fs, removeAllH vs fs = some (fs.filter (fun f => decide (¬ some f.1 ∈ vs))) := by
  induction vs with
  | nil =>
    intro _ fs
    simp [removeAllH]
  | cons x t ih =>
    intro hx fs
    match x with
    | none => exact absurd rfl (hx none (by simp))
    | some h =>
      have ht : ∀ h' ∈ t, h' ≠ none := fun h' hm => hx h' (List.mem_cons_of_mem _ hm)
      rw [removeAllH, ih ht (removeH fs h), removeH, List.filter_filter]
      congr 1
      apply List.filter_congr
      intro f _
      rcases Decidable.em (some f.1 ∈ t) with hmem | hmem <;>
        rcases Decidable.em (f.1 = h) with heq | heq <;>
          simp [hmem, heq]

theorem mem_fragIds_split {m : Nat} (fs : List (Nat × Bytes)) (h : m ∈ fragIds fs) :
    ∃ A c B, fs = A ++ (m, c) :: B ∧ m ∉ fragIds A := by
  induction fs with
  | nil => simp [fragIds] at h
  | cons f t ih =>
    by_cases hf : f.1 = m
    · exact ⟨[], f.2, t, by simp [← hf], by simp [fragIds]⟩
    · have hm : m ∈ fragIds t := by
        simp only [fragIds, List.map_cons, List.mem_cons] at h
        exact h.resolve_left (fun he => hf he.symm)
      obtain ⟨A, c, B, hsplit, hA⟩ := ih hm
      exact ⟨f :: A, c, B, by simp [hsplit], by
        simp only [fragIds, List.map_cons, List.mem_cons, not_or]
        exact ⟨fun he => hf he.symm, hA⟩⟩

theorem insertAfterH_split {m : Nat} (A : List (Nat × Bytes)) (c : Bytes)
    (B : List (Nat × Bytes)) (nv : Nat × Bytes) (hA : m ∉ fragIds A) :
    insertAfterH (A ++ (m, c) :: B) m nv = some (A ++ (m, c) :: nv :: B) := by
  induction A with
  | nil => simp [insertAfterH]
  | cons a A' ih =>
    simp only [fragIds, List.map_cons, List.mem_cons, not_or] at hA
    have ha : a.1 ≠ m := fun he => hA.1 he.symm
    simp only [List.cons_append, insertAfterH, if_neg ha]
    have ih' := ih (by simp only [fragIds]; exact hA.2)
    rw [show (A'.append ((m, c) :: B)) = A' ++ (m, c) :: B from rfl, ih']
    rfl


/-- Parsing that succeeded with zero recorded syntax errors: exactly the
case where Go IniParseContents returns a nil error. -/
def cleanParse (file contents : Bytes) : Option IniEditor :=
  match NewIniEdit file contents with
  | .done none ed _ _ => some ed
  | _ => none

/-- One completed iteration of the statement loop. -/
theorem doLoopF_step {σ : Type} (sink : IniSink σ) (fuel fuel' : Nat) (st : σ) (l : Lexer)
    (errs errs' : List ParseError) (n n' : Nat) {e : Option ParseError} {st' : σ} {l' : Lexer}
    (hlt : l.index < l.input.length)
    (hdo : do1 sink st l = .ok e st' l')
    (hfuel : fuel = fuel' + 1)
    (herrs : errs' = errs ++ e.toList)
    (hn : n' = n + 1) :
    doLoopF sink fuel st l errs n = doLoopF sink fuel' st' l' errs' n' := by
  subst hfuel herrs hn
  rw [doLoopF, if_pos hlt, hdo]

/-- The editor state Build produces for "[core]\n\tfoo = 1\n\tfoo = 2\n":
header, two key fragments, trailing empty insertion marker. -/
def sampleEd : IniEditor :=
  { fragments := [(0, bstr "[core]\n"), (1, bstr "\tfoo = 1\n"),
                  (2, bstr "\tfoo = 2\n"), (3, [])],
    nextId := 4,
    secEnd := [([], some 0), (bstr "[core]", some 3)],
    values := [(bstr "core.foo", [some 1, some 2])],
    lastSec := none }

/- Intermediate parser and editor states for the statement-by-statement
evaluation of "[core]\n\tfoo = 1\n\tfoo = 2\n". -/

def c4inp : Bytes := bstr "[core]\n\tfoo = 1\n\tfoo = 2\n"

def c4lexA : Lexer := ⟨0, 0, 0, c4inp, [], none, 0⟩

def c4edA : IniEditor :=
  { fragments := [(0, bstr "[core]\n")], nextId := 1, secEnd := [([], some 0)],
    values := [], lastSec := some ⟨bstr "core", none⟩ }

def c4lexB : Lexer := ⟨7, 1, 0, c4inp, [], some ⟨bstr "core", none⟩, 7⟩

def c4edB : IniEditor :=
  { fragments := [(0, bstr "[core]\n"), (1, bstr "\tfoo = 1\n")], nextId := 2,
    secEnd := [([], some 0)],
    values := [(bstr "core.foo", [some 1])], lastSec := some ⟨bstr "core", none⟩ }

def c4lexC : Lexer := ⟨16, 2, 0, c4inp, [], some ⟨bstr "core", none⟩, 16⟩

def c4edC : IniEditor :=
  { fragments := [(0, bstr "[core]\n"), (1, bstr "\tfoo = 1\n"), (2, bstr "\tfoo = 2\n")],
    nextId := 3,
    secEnd := [([], some 0)],
    values := [(bstr "core.foo", [some 1, some 2])], lastSec := some ⟨bstr "core", none⟩ }

def c4lexD : Lexer := ⟨25, 3, 0, c4inp, [], some ⟨bstr "core", none⟩, 25⟩

theorem c4_parse :
    NewIniEdit [] c4inp = .done none sampleEd
      { c4lexD with prevEnd := 25 } 3 := by
  have h1 : do1 edSink emptyEditor c4lexA = .ok none c4edA c4lexB := by decide
  have h2 : do1 edSink c4edA c4lexB = .ok none c4edB c4lexC := by decide
  have h3 : do1 edSink c4edB c4lexC = .ok none c4edC c4lexD := by decide
  have e1 : doLoopF edSink 25 emptyEditor c4lexA [] 0 = doLoopF edSink 24 c4edA c4lexB [] 1 :=
    doLoopF_step edSink 25 24 emptyEditor c4lexA [] [] 0 1 (by decide) h1 rfl rfl rfl
  have e2 : doLoopF edSink 24 c4edA c4lexB [] 1 = doLoopF edSink 23 c4edB c4lexC [] 2 :=
    doLoopF_step edSink 24 23 c4edA c4lexB [] [] 1 2 (by decide) h2 rfl rfl rfl
  have e3 : doLoopF edSink 23 c4edB c4lexC [] 2 = doLoopF edSink 22 c4edC c4lexD [] 3 :=
    doLoopF_step edSink 23 22 c4edB c4lexC [] [] 2 3 (by decide) h3 rfl rfl rfl
  have e4 : doLoopF edSink 22 c4edC c4lexD [] 3 =
      .done none sampleEd { c4lexD with prevEnd := 25 } 3 := by decide
  calc NewIniEdit [] c4inp = doLoopF edSink 25 emptyEditor c4lexA [] 0 := rfl
    _ = doLoopF edSink 24 c4edA c4lexB [] 1 := e1
    _ = doLoopF edSink 23 c4edB c4lexC [] 2 := e2
    _ = doLoopF edSink 22 c4edC c4lexD [] 3 := e3
    _ = .done none sampleEd { c4lexD with prevEnd := 25 } 3 := e4

/-- Claim C4: Del removes from the fragment sequence exactly the
fragments indexed under the qualified key and drops the index entry (so
a later lookup of the key finds nothing), is a no-op when the key is
absent, and on the editor built from "[core]\n\tfoo = 1\n\tfoo = 2\n"
deleting core.foo serializes to "[core]\n". -/
theorem claim_C4_delete :
    (∀ (ed : IniEditor) (is : Option IniSection) (key k : Bytes),
      IniQKey is key = some k →
      ((assocLookup ed.values k = none → ed.Del is key = some ed) ∧
       (∀ vs, assocLookup ed.values k = some vs → (∀ h ∈ vs, h ≠ none) →
         (ed.values.map Prod.fst).Nodup →
         ed.Del is key = some
           { ed with
             fragments := ed.fragments.filter (fun f => decide (¬ some f.1 ∈ vs)),
             values := assocDelete ed.values k } ∧
         assocLookup (assocDelete ed.values k) k = none))) ∧
    ((cleanParse [] c4inp).bind
        (fun ed => (ed.Del (some ⟨bstr "core", none⟩) (bstr "foo")).map IniEditor.toBytes)
      = some (bstr "[core]\n")) := by
  constructor
  · intro ed is key k hk
    constructor
    · intro hnone
      simp only [IniEditor.Del, hk, hnone, Option.getD_none, removeAllH,
        assocDelete_of_lookup_none ed.values k hnone]
    · intro vs hvs hsome hnd
      refine ⟨?_, assocLookup_assocDelete_self ed.values k hnd⟩
      simp only [IniEditor.Del, hk, hvs, Option.getD_some,
        removeAllH_eq_filter vs hsome ed.fragments]
  · have hclean : cleanParse [] c4inp = some sampleEd := by
      unfold cleanParse
      rw [c4_parse]
    rw [hclean]
    decide

theorem claim_C4_witness :
    IniQKey (some ⟨bstr "core", none⟩) (bstr "foo") = some (bstr "core.foo") ∧
    assocLookup sampleEd.values (bstr "core.foo") = some [some 1, some 2] ∧
    sampleEd.Del (some ⟨bstr "core", none⟩) (bstr "foo") = some
      { sampleEd with
        fragments := sampleEd.fragments.filter
          (fun f => decide (¬ some f.1 ∈ ([some 1, some 2] : List (Option Nat)))),
        values := assocDelete sampleEd.values (bstr "core.foo") } ∧
    assocLookup (assocDelete sampleEd.values (bstr "core.foo")) (bstr "core.foo") = none := by
  refine ⟨by decide, by decide, ?_⟩
  exact ((claim_C4_delete.1 sampleEd (some ⟨bstr "core", none⟩) (bstr "foo")
    (bstr "core.foo") (by decide)).2 [some 1, some 2] (by decide) (by decide) (by decide))

theorem fragIds_filter_subset (p : Nat × Bytes → Bool) (A : List (Nat × Bytes)) :
    ∀ m ∈ fragIds (A.filter p), m ∈ fragIds A := by
  intro m hm
  simp only [fragIds, List.mem_map] at hm ⊢
  obtain ⟨f, hf, rfl⟩ := hm
  exact ⟨f, List.mem_of_mem_filter hf, rfl⟩

/-- Behavior of Go Set on a key with existing realizations: the new line
goes immediately after the last indexed fragment, every previously
indexed fragment is removed, the index points at the new fragment
alone. -/
theorem set_existing (ed : IniEditor) (is : Option IniSection) (key v k : Bytes)
    (vs : List (Option Nat)) (lastH : Nat)
    (A : List (Nat × Bytes)) (c : Bytes) (B : List (Nat × Bytes))
    (hk : IniQKey is key = some k)
    (hvs : assocLookup ed.values k = some vs)
    (hlast : vs.getLast? = some (some lastH))
    (hsome : ∀ h ∈ vs, h ≠ none)
    (hsplit : ed.fragments = A ++ (lastH, c) :: B)
    (hAnot : lastH ∉ fragIds A)
    (hfresh : some ed.nextId ∉ vs) :
    ed.Set is key v = some
      { fragments := A.filter (fun f => decide (¬ some f.1 ∈ vs)) ++
          (ed.nextId, iniLine key v) :: B.filter (fun f => decide (¬ some f.1 ∈ vs)),
        nextId := ed.nextId + 1,
        secEnd := ed.secEnd,
        values := assocSet ed.values k [some ed.nextId],
        lastSec := ed.lastSec } := by
  have hlen : vs.length > 0 := by
    cases vs with
    | nil => simp at hlast
    | cons x t => simp
  have hmemL : some lastH ∈ vs := getLast?_mem_self hlast
  simp only [IniEditor.Set, hk, hvs, Option.getD_some, if_pos hlen, hlast]
  simp only [IniEditor.insertAfter, hsplit,
    insertAfterH_split A c B (ed.nextId, iniLine key v) hAnot, Option.map_some']
  rw [removeAllH_eq_filter vs hsome]
  simp only [List.filter_append, List.filter_cons]
  have h1 : decide (¬ some (lastH, c).1 ∈ vs) = false := by simp [hmemL]
  have h2 : decide (¬ some (ed.nextId, iniLine key v).1 ∈ vs) = true := by simp [hfresh]
  rw [h1, h2]
  simp

/-- Claim C3: when the qualified key already has realizations, Set
inserts the single new key line immediately after the last existing
occurrence, removes all previous occurrences, and leaves the index with
exactly the one new fragment; a second Set with the same value again
yields exactly one realization and leaves the serialized bytes
unchanged. -/
theorem claim_C3_set :
    ∀ (ed : IniEditor) (is : Option IniSection) (key v k : Bytes) (vs : List (Option Nat)),
      IniQKey is key = some k →
      assocLookup ed.values k = some vs →
      vs ≠ [] →
      (∀ h ∈ vs, h ≠ none) →
      (∀ h, some h ∈ vs → h ∈ fragIds ed.fragments) →
      (∀ h ∈ fragIds ed.fragments, h < ed.nextId) →
      ∃ lastH A c B,
        vs.getLast? = some (some lastH) ∧
        ed.fragments = A ++ (lastH, c) :: B ∧
        ed.Set is key v = some
          { fragments := A.filter (fun f => decide (¬ some f.1 ∈ vs)) ++
              (ed.nextId, iniLine key v) :: B.filter (fun f => decide (¬ some f.1 ∈ vs)),
            nextId := ed.nextId + 1, secEnd := ed.secEnd,
            values := assocSet ed.values k [some ed.nextId], lastSec := ed.lastSec } ∧
        ∀ ed1, ed.Set is key v = some ed1 →
          assocLookup ed1.values k = some [some ed.nextId] ∧
          ∃ ed2, ed1.Set is key v = some ed2 ∧
            assocLookup ed2.values k = some [some ed1.nextId] ∧
            ed2.toBytes = ed1.toBytes := by
  intro ed is key v k vs hk hvs hne hsome hin hbound
  have hxmem : vs.getLast hne ∈ vs := List.getLast_mem hne
  cases hx : vs.getLast hne with
  | none => exact absurd rfl (hsome none (hx ▸ hxmem))
  | some lastH =>
    have hlast : vs.getLast? = some (some lastH) := by
      rw [List.getLast?_eq_getLast_of_ne_nil hne, hx]
    have hmemL : some lastH ∈ vs := hx ▸ hxmem
    obtain ⟨A, c, B, hsplit, hAnot⟩ := mem_fragIds_split ed.fragments (hin lastH hmemL)
    have hfresh : some ed.nextId ∉ vs := fun hmem =>
      absurd (hbound ed.nextId (hin _ hmem)) (lt_irrefl _)
    have hset := set_existing ed is key v k vs lastH A c B hk hvs hlast hsome hsplit hAnot hfresh
    refine ⟨lastH, A, c, B, hlast, hsplit, hset, ?_⟩
    intro ed1 hed1
    rw [hset] at hed1
    injection hed1 with hed1
    subst hed1
    constructor
    · exact assocLookup_assocSet_self ed.values k [some ed.nextId]
    · have hidsA : ∀ m ∈ fragIds (A.filter (fun f => decide (¬ some f.1 ∈ vs))), m < ed.nextId := by
        intro m hm
        apply hbound
        rw [hsplit]
        have := fragIds_filter_subset _ A m hm
        simp only [fragIds, List.map_append, List.map_cons, List.mem_append, List.mem_cons]
        exact Or.inl this
      have hidsB : ∀ m ∈ fragIds (B.filter (fun f => decide (¬ some f.1 ∈ vs))), m < ed.nextId := by
        intro m hm
        apply hbound
        rw [hsplit]
        have := fragIds_filter_subset _ B m hm
        simp only [fragIds, List.map_append, List.map_cons, List.mem_append, List.mem_cons]
        exact Or.inr (Or.inr this)
      have hA1 : ed.nextId ∉ fragIds (A.filter (fun f => decide (¬ some f.1 ∈ vs))) :=
        fun hm => absurd (hidsA _ hm) (lt_irrefl _)
      have hset2 := set_existing
        { fragments := A.filter (fun f => decide (¬ some f.1 ∈ vs)) ++
            (ed.nextId, iniLine key v) :: B.filter (fun f => decide (¬ some f.1 ∈ vs)),
          nextId := ed.nextId + 1, secEnd := ed.secEnd,
          values := assocSet ed.values k [some ed.nextId], lastSec := ed.lastSec }
        is key v k [some ed.nextId] ed.nextId
        (A.filter (fun f => decide (¬ some f.1 ∈ vs))) (iniLine key v)
        (B.filter (fun f => decide (¬ some f.1 ∈ vs)))
        hk (assocLookup_assocSet_self ed.values k [some ed.nextId]) (by simp)
        (by simp) rfl hA1 (by simp)
      refine ⟨_, hset2, assocLookup_assocSet_self _ k [some (ed.nextId + 1)], ?_⟩
      have hAkeep : (A.filter (fun f => decide (¬ some f.1 ∈ vs))).filter
          (fun f => decide (¬ some f.1 ∈ ([some ed.nextId] : List (Option Nat)))) =
          A.filter (fun f => decide (¬ some f.1 ∈ vs)) := by
        apply List.filter_eq_self.mpr
        intro f hf
        have : f.1 < ed.nextId := hidsA f.1 (by
          simp only [fragIds, List.mem_map]; exact ⟨f, hf, rfl⟩)
        simp only [List.mem_singleton, Option.some.injEq, decide_eq_true_eq]
        omega
      have hBkeep : (B.filter (fun f => decide (¬ some f.1 ∈ vs))).filter
          (fun f => decide (¬ some f.1 ∈ ([some ed.nextId] : List (Option Nat)))) =
          B.filter (fun f => decide (¬ some f.1 ∈ vs)) := by
        apply List.filter_eq_self.mpr
        intro f hf
        have : f.1 < ed.nextId := hidsB f.1 (by
          simp only [fragIds, List.mem_map]; exact ⟨f, hf, rfl⟩)
        simp only [List.mem_singleton, Option.some.injEq, decide_eq_true_eq]
        omega
      simp only [IniEditor.toBytes, hAkeep, hBkeep, List.map_append, List.map_cons]

theorem claim_C3_witness :
    IniQKey (some ⟨bstr "core", none⟩) (bstr "foo") = some (bstr "core.foo") ∧
    assocLookup sampleEd.values (bstr "core.foo") = some [some 1, some 2] ∧
    (∃ lastH A c B,
        ([some 1, some 2] : List (Option Nat)).getLast? = some (some lastH) ∧
        sampleEd.fragments = A ++ (lastH, c) :: B ∧
        sampleEd.Set (some ⟨bstr "core", none⟩) (bstr "foo") (bstr "2") = some
          { fragments :=
              A.filter (fun f => decide (¬ some f.1 ∈ ([some 1, some 2] : List (Option Nat)))) ++
              (sampleEd.nextId, iniLine (bstr "foo") (bstr "2")) ::
              B.filter (fun f => decide (¬ some f.1 ∈ ([some 1, some 2] : List (Option Nat)))),
            nextId := sampleEd.nextId + 1, secEnd := sampleEd.secEnd,
            values := assocSet sampleEd.values (bstr "core.foo") [some sampleEd.nextId],
            lastSec := sampleEd.lastSec } ∧
        ∀ ed1, sampleEd.Set (some ⟨bstr "core", none⟩) (bstr "foo") (bstr "2") = some ed1 →
          assocLookup ed1.values (bstr "core.foo") = some [some sampleEd.nextId] ∧
          ∃ ed2, ed1.Set (some ⟨bstr "core", none⟩) (bstr "foo") (bstr "2") = some ed2 ∧
            assocLookup ed2.values (bstr "core.foo") = some [some ed1.nextId] ∧
            ed2.toBytes = ed1.toBytes) := by
  refine ⟨by decide, by decide, ?_⟩
  exact claim_C3_set sampleEd (some ⟨bstr "core", none⟩) (bstr "foo") (bstr "2")
    (bstr "core.foo") [some 1, some 2] (by decide) (by decide) (by decide)
    (by decide)
    (by intro h hm; simp only [List.mem_cons, List.not_mem_nil, or_false,
          Option.some.injEq] at hm
        rcases hm with rfl | rfl <;> decide)
    (by decide)

theorem Lexer.skip1_input (l : Lexer) : (l.skip1).input = l.input := by
  unfold Lexer.skip1
  split
  · rfl
  · split
    · rfl
    · split <;> rfl

theorem Lexer.skip1_index_of_some (l : Lexer) (b : Nat)
    (h : l.input[l.index]? = some b) : (l.skip1).index = l.index + 1 := by
  unfold Lexer.skip1
  rw [h]
  split
  · rename_i heq
    simp at heq
  · split
    · rfl
    · split <;> rfl

theorem Lexer.skip_one (l : Lexer) : l.skip 1 = l.skip1 := rfl

theorem peek_append (l : Lexer) (pre post : Bytes) (hinp : l.input = pre ++ post)
    (hidx : l.index = pre.length) : l.peek = post.head? := by
  unfold Lexer.peek
  rw [hinp, hidx, List.getElem?_append_right (Nat.le_refl _), Nat.sub_self]
  cases post <;> simp

theorem step_state (l : Lexer) (pre : Bytes) (c : Nat) (rest : Bytes)
    (hinp : l.input = pre ++ c :: rest) (hidx : l.index = pre.length) :
    (l.skip 1).input = pre ++ c :: rest ∧ (l.skip 1).index = (pre ++ [c]).length := by
  have hget : l.input[l.index]? = some c := by
    have := peek_append l pre (c :: rest) hinp hidx
    simpa [Lexer.peek] using this
  rw [Lexer.skip_one]
  refine ⟨(Lexer.skip1_input l).trans hinp, ?_⟩
  rw [Lexer.skip1_index_of_some l c hget, hidx]
  simp

/-- Bytes that an unquoted escaped value may contain: printable ASCII
other than the four specials, per needQuotes. -/
def plainOK (c : Nat) : Prop :=
  32 ≤ c ∧ c ≤ 126 ∧ c ≠ 34 ∧ c ≠ 35 ∧ c ≠ 59 ∧ c ≠ 92

theorem getValue_plain (tail : Bytes) :
    ∀ (fuel : Nat) (pre acc : Bytes) (l : Lexer),
      l.input = pre ++ tail → l.index = pre.length →
      (∀ c ∈ tail, plainOK c) → tail.length + 1 ≤ fuel →
      ∃ l', getValueFuel fuel l acc false false = .ok (acc ++ tail, l') := by
  induction tail with
  | nil =>
    intro fuel pre acc l hinp hidx _ hfuel
    obtain ⟨f, rfl⟩ : ∃ f, fuel = f + 1 := ⟨fuel - 1, by omega⟩
    have hpk : l.peek = none := by
      have := peek_append l pre [] (by simpa using hinp) hidx
      simpa using this
    refine ⟨l.skip 1, ?_⟩
    rw [getValueFuel]
    simp [hpk]
  | cons c rest ih =>
    intro fuel pre acc l hinp hidx hok hfuel
    obtain ⟨f, rfl⟩ : ∃ f, fuel = f + 1 := ⟨fuel - 1, by omega⟩
    have hpk : l.peek = some c := peek_append l pre (c :: rest) hinp hidx
    obtain ⟨h32, h126, hq, hh, hsc, hbs⟩ := hok c (by simp)
    obtain ⟨hst1, hst2⟩ := step_state l pre c rest hinp hidx
    have hfuel' : rest.length + 1 ≤ f := by
      simp only [List.length_cons] at hfuel
      omega
    obtain ⟨l', hl'⟩ := ih f (pre ++ [c]) (acc ++ [c]) (l.skip 1)
      (by rw [hst1]; simp) hst2
      (fun x hx => hok x (by simp [hx])) hfuel'
    refine ⟨l', ?_⟩
    have hc10 : c ≠ 10 := by omega
    have hc13 : c ≠ 13 := by omega
    rw [getValueFuel]
    simp only [hpk]
    simp [hq, hh, hsc, hbs, hc10, hc13, hl']

theorem backslash_step (f : Nat) (l : Lexer) (acc : Bytes) (inq : Bool)
    (hpk : l.peek = some 92) :
    getValueFuel (f + 1) l acc false inq = getValueFuel f (l.skip 1) acc true inq := by
  rw [getValueFuel]
  simp [hpk]

theorem quote_step (f : Nat) (l : Lexer) (acc : Bytes) (inq : Bool)
    (hpk : l.peek = some 34) :
    getValueFuel (f + 1) l acc false inq = getValueFuel f (l.skip 1) acc false (!inq) := by
  rw [getValueFuel]
  simp [hpk]

theorem eof_step (f : Nat) (l : Lexer) (acc : Bytes) (hpk : l.peek = none) :
    getValueFuel (f + 1) l acc false false = .ok (acc, l.skip 1) := by
  rw [getValueFuel]
  simp [hpk]

theorem escape_arm_step (f : Nat) (l1 : Lexer) (acc : Bytes) (eb out : Nat)
    (hpk1 : l1.peek = some eb)
    (hspec : (eb = 34 ∧ out = 34) ∨ (eb = 92 ∧ out = 92) ∨ (eb = 110 ∧ out = 10) ∨
      (eb = 116 ∧ out = 9) ∨ (eb = 98 ∧ out = 8)) :
    getValueFuel (f + 1) l1 acc true true =
      getValueFuel f (l1.skip 1) (acc ++ [out]) false true := by
  rcases hspec with ⟨rfl, rfl⟩ | ⟨rfl, rfl⟩ | ⟨rfl, rfl⟩ | ⟨rfl, rfl⟩ | ⟨rfl, rfl⟩ <;>
    (rw [getValueFuel]; simp [hpk1])

theorem literal_step (f : Nat) (l : Lexer) (acc : Bytes) (b : Nat)
    (hpk : l.peek = some b)
    (hb34 : b ≠ 34) (hb92 : b ≠ 92) (hb10 : b ≠ 10)
    (hb13 : b = 13 → ∃ nx, l.atN 1 = .ok nx ∧ nx ≠ some 10) :
    getValueFuel (f + 1) l acc false true =
      getValueFuel f (l.skip 1) (acc ++ [b]) false true := by
  rw [getValueFuel]
  by_cases h13 : b = 13
  · subst h13
    obtain ⟨nx, hnx, hne⟩ := hb13 rfl
    simp [hpk, hnx, hne]
  · simp [hpk, hb34, hb92, hb10, h13]

/-- The first byte of the encoded remainder of a quoted value is never a
literal newline (newlines are encoded as backslash-n, and the close
quote follows at the very end). -/
theorem encNext_ne_newline (t : Bytes) (h : Nat)
    (hh : (((t.map escByte).flatten) ++ [34]).head? = some h) : h ≠ 10 := by
  cases t with
  | nil =>
    simp at hh
    omega
  | cons b t' =>
    by_cases hb : b = 34 ∨ b = 92
    · simp [escByte, hb] at hh
      omega
    · by_cases h8 : b = 8
      · simp [escByte, h8] at hh; omega
      · by_cases h10 : b = 10
        · simp [escByte, hb, h8, h10] at hh; omega
        · by_cases h9 : b = 9
          · simp [escByte, hb, h8, h10, h9] at hh; omega
          · simp [escByte, hb, h8, h10, h9] at hh
            omega

theorem getValue_quoted (s : Bytes) :
    ∀ (fuel : Nat) (pre acc : Bytes) (l : Lexer),
      l.input = pre ++ ((s.map escByte).flatten ++ [34]) →
      l.index = pre.length →
      ((s.map escByte).flatten).length + 2 ≤ fuel →
      ∃ l', getValueFuel fuel l acc false true = .ok (acc ++ s, l') := by
  induction s with
  | nil =>
    intro fuel pre acc l hinp hidx hfuel
    simp only [List.map_nil, List.flatten_nil, List.length_nil, List.nil_append] at hinp hfuel
    obtain ⟨f, rfl⟩ : ∃ f, fuel = f + 1 + 1 := ⟨fuel - 2, by omega⟩
    have hpk : l.peek = some 34 := peek_append l pre [34] hinp hidx
    obtain ⟨hs1, hs2⟩ := step_state l pre 34 [] hinp hidx
    have hpk2 : (l.skip 1).peek = none :=
      peek_append _ (pre ++ [34]) [] (by rw [hs1]; simp) hs2
    refine ⟨(l.skip 1).skip 1, ?_⟩
    rw [quote_step (f + 1) l acc true hpk]
    simp only [Bool.not_true]
    rw [eof_step f (l.skip 1) acc hpk2]
    simp
  | cons b t ih =>
    intro fuel pre acc l hinp hidx hfuel
    by_cases hb2 : b = 34 ∨ b = 92 ∨ b = 8 ∨ b = 10 ∨ b = 9
    · -- two-byte encoding 92 :: eb
      have henc : ∃ eb out, escByte b = [92, eb] ∧ out = b ∧
          ((eb = 34 ∧ out = 34) ∨ (eb = 92 ∧ out = 92) ∨ (eb = 110 ∧ out = 10) ∨
           (eb = 116 ∧ out = 9) ∨ (eb = 98 ∧ out = 8)) := by
        rcases hb2 with rfl | rfl | rfl | rfl | rfl
        · exact ⟨34, 34, by simp [escByte], rfl, by simp⟩
        · exact ⟨92, 92, by simp [escByte], rfl, by simp⟩
        · exact ⟨98, 8, by simp [escByte], rfl, by simp⟩
        · exact ⟨110, 10, by simp [escByte], rfl, by simp⟩
        · exact ⟨116, 9, by simp [escByte], rfl, by simp⟩
      obtain ⟨eb, out, hesc, hout, hspec⟩ := henc
      have hshape : l.input = pre ++ 92 :: eb :: ((t.map escByte).flatten ++ [34]) := by
        rw [hinp]
        simp [hesc]
      obtain ⟨f, rfl⟩ : ∃ f, fuel = f + 1 + 1 := by
        refine ⟨fuel - 2, ?_⟩
        simp only [List.map_cons, List.flatten_cons, hesc, List.length_append] at hfuel
        simp at hfuel
        omega
      have hpk : l.peek = some 92 := peek_append l pre _ hshape hidx
      obtain ⟨hs1, hs2⟩ := step_state l pre 92 _ hshape hidx
      have hshape1 : (l.skip 1).input =
          (pre ++ [92]) ++ eb :: ((t.map escByte).flatten ++ [34]) := by
        rw [hs1]; simp
      have hpk1 : (l.skip 1).peek = some eb := peek_append _ (pre ++ [92]) _ hshape1 hs2
      obtain ⟨ht1, ht2⟩ := step_state (l.skip 1) (pre ++ [92]) eb _ hshape1 hs2
      obtain ⟨l', hl'⟩ := ih f ((pre ++ [92]) ++ [eb]) (acc ++ [out]) ((l.skip 1).skip 1)
        (by rw [ht1]; simp)
        (by rw [ht2])
        (by simp only [List.map_cons, List.flatten_cons, hesc, List.length_append] at hfuel ⊢
            simp at hfuel ⊢
            omega)
      refine ⟨l', ?_⟩
      rw [backslash_step (f + 1) l acc true hpk,
          escape_arm_step f (l.skip 1) acc eb out hpk1 hspec, hl', hout]
      simp
    · -- single-byte encoding
      have hb34 : b ≠ 34 := by tauto
      have hb92 : b ≠ 92 := by tauto
      have hb8 : b ≠ 8 := by tauto
      have hb10 : b ≠ 10 := by tauto
      have hb9 : b ≠ 9 := by tauto
      have hesc : escByte b = [b] := by
        simp [escByte, hb34, hb92, hb8, hb10, hb9]
      have hshape : l.input = pre ++ b :: ((t.map escByte).flatten ++ [34]) := by
        rw [hinp]; simp [hesc]
      obtain ⟨f, rfl⟩ : ∃ f, fuel = f + 1 := by
        refine ⟨fuel - 1, ?_⟩
        simp only [List.map_cons, List.flatten_cons, hesc, List.length_append] at hfuel
        simp at hfuel
        omega
      have hpk : l.peek = some b := peek_append l pre _ hshape hidx
      obtain ⟨hs1, hs2⟩ := step_state l pre b _ hshape hidx
      have hat : b = 13 → ∃ nx, l.atN 1 = .ok nx ∧ nx ≠ some 10 := by
        intro _
        have hlen : l.index + 1 < l.input.length := by
          rw [hshape, hidx]
          simp
        refine ⟨l.input[l.index + 1]?, ?_, ?_⟩
        · unfold Lexer.atN
          rw [if_neg (by omega), if_neg (by omega)]
        · have : l.input[l.index + 1]? =
              (((t.map escByte).flatten ++ [34])).head? := by
            have : l.input = (pre ++ [b]) ++ ((t.map escByte).flatten ++ [34]) := by
              rw [hshape]; simp
            rw [this, hidx]
            rw [show pre.length + 1 = (pre ++ [b]).length by simp]
            rw [List.getElem?_append_right (Nat.le_refl _), Nat.sub_self]
            cases h : (((t.map escByte).flatten ++ [34])) <;> simp [h]
          rw [this]
          cases hh : (((t.map escByte).flatten ++ [34])).head? with
          | none => simp at hh
          | some x =>
            have := encNext_ne_newline t x hh
            simp [this]
      obtain ⟨l', hl'⟩ := ih f (pre ++ [b]) (acc ++ [b]) (l.skip 1)
        (by rw [hs1]; simp) hs2
        (by simp only [List.map_cons, List.flatten_cons, hesc, List.length_append] at hfuel ⊢
            simp at hfuel ⊢
            omega)
      refine ⟨l', ?_⟩
      rw [literal_step f l acc b hpk hb34 hb92 hb10 hat, hl']
      simp

theorem plainOK_of_not_needQuotes (s : Bytes) (h : needQuotes s = false) :
    ∀ c ∈ s, plainOK c := by
  cases s with
  | nil => intro c hc; simp at hc
  | cons a t =>
    intro c hc
    simp only [needQuotes] at h
    split at h
    · simp at h
    · rw [List.any_eq_false] at h
      have h2 := h c hc
      simp at h2
      obtain ⟨k1, k2, k3, k4, k5, k6⟩ := h2
      refine ⟨?_, ?_, ?_, ?_, ?_, ?_⟩ <;> omega

/-- Claim C2: parsing under the value grammar (getValue from a fresh
cursor, outside quotes) of the text produced by EscapeIniValue yields
exactly the original byte string, for every byte string; values starting
with a space or a tab are always escaped by quoting. -/
theorem claim_C2_escape_inverse :
    (∀ s : Bytes, ∃ l',
        Lexer.getValue ⟨0, 0, 0, EscapeIniValue s, [], none, 0⟩ = .ok (s, l')) ∧
    (∀ s : Bytes, (EscapeIniValue (32 :: s)).head? = some 34) ∧
    (∀ s : Bytes, (EscapeIniValue (9 :: s)).head? = some 34) := by
  refine ⟨?_, ?_, ?_⟩
  · intro s
    by_cases hq : needQuotes s
    · have henc : EscapeIniValue s = 34 :: ((s.map escByte).flatten ++ [34]) := by
        simp [EscapeIniValue, hq]
      have hlen : (EscapeIniValue s).length + 1 - 0 =
          (((s.map escByte).flatten).length + 2) + 1 := by
        rw [henc]
        simp
        try omega
      unfold Lexer.getValue
      simp only [hlen]
      have hpk : (⟨0, 0, 0, EscapeIniValue s, [], none, 0⟩ : Lexer).peek = some 34 := by
        apply peek_append _ [] (34 :: ((s.map escByte).flatten ++ [34]))
        · simpa using henc
        · rfl
      rw [quote_step _ _ [] false hpk]
      simp only [Bool.not_false]
      obtain ⟨hs1, hs2⟩ := step_state ⟨0, 0, 0, EscapeIniValue s, [], none, 0⟩ []
        34 ((s.map escByte).flatten ++ [34]) (by simpa using henc) rfl
      obtain ⟨l', hl'⟩ := getValue_quoted s (((s.map escByte).flatten).length + 2)
        [34] [] ((⟨0, 0, 0, EscapeIniValue s, [], none, 0⟩ : Lexer).skip 1)
        (by rw [hs1]; simp) (by rw [hs2]; rfl) (Nat.le_refl _)
      refine ⟨l', ?_⟩
      rw [hl']
      simp
    · have hesc : EscapeIniValue s = s := by
        simp [EscapeIniValue, hq]
      have hplain := plainOK_of_not_needQuotes s (by simpa using hq)
      unfold Lexer.getValue
      obtain ⟨l', hl'⟩ := getValue_plain s ((EscapeIniValue s).length + 1 - 0)
        [] [] ⟨0, 0, 0, EscapeIniValue s, [], none, 0⟩
        (by rw [hesc]; rfl) rfl hplain (by rw [hesc]; omega)
      exact ⟨l', by simpa using hl'⟩
  · intro s
    have hq : needQuotes (32 :: s) = true := by simp [needQuotes]
    simp [EscapeIniValue, hq]
  · intro s
    have hq : needQuotes (9 :: s) = true := by simp [needQuotes]
    simp [EscapeIniValue, hq]

/-- State relation preserved by all pure scanning primitives: the input,
file, current section and previous statement end are untouched, the
cursor only moves forward and never past the end of the input. -/
def Pres (l l' : Lexer) : Prop :=
  l'.input = l.input ∧ l'.file = l.file ∧ l'.sec = l.sec ∧ l'.prevEnd = l.prevEnd ∧
  l.index ≤ l'.index ∧ (l.index ≤ l.input.length → l'.index ≤ l.input.length)

theorem presRefl (l : Lexer) : Pres l l :=
  ⟨rfl, rfl, rfl, rfl, Nat.le_refl _, id⟩

theorem presTrans {a b c : Lexer} (h1 : Pres a b) (h2 : Pres b c) : Pres a c := by
  obtain ⟨i1, f1, s1, p1, x1, y1⟩ := h1
  obtain ⟨i2, f2, s2, p2, x2, y2⟩ := h2
  refine ⟨i2.trans i1, f2.trans f1, s2.trans s1, p2.trans p1, x1.trans x2, ?_⟩
  intro hb
  have := y2 (by rw [i1]; exact y1 hb)
  rwa [i1] at this

theorem pres_skip1 (l : Lexer) : Pres l l.skip1 := by
  unfold Lexer.skip1
  split
  · exact presRefl l
  · rename_i b hb
    have hidx : l.index < l.input.length := by
      by_contra hge
      rw [List.getElem?_eq_none (by omega)] at hb
      cases hb
    split
    · exact ⟨rfl, rfl, rfl, rfl, by show l.index ≤ l.index + 1; omega,
        fun _ => by show l.index + 1 ≤ l.input.length; omega⟩
    · split
      · exact ⟨rfl, rfl, rfl, rfl, by show l.index ≤ l.index + 1; omega,
          fun _ => by show l.index + 1 ≤ l.input.length; omega⟩
      · exact ⟨rfl, rfl, rfl, rfl, by show l.index ≤ l.index + 1; omega,
          fun _ => by show l.index + 1 ≤ l.input.length; omega⟩

theorem pres_skip (l : Lexer) (n : Nat) : Pres l (l.skip n) := by
  induction n generalizing l with
  | zero => exact presRefl l
  | succ m ih => exact presTrans (pres_skip1 l) (ih l.skip1)

theorem pres_matchStr (l : Lexer) (t : Bytes) : Pres l (l.matchStr t).2 := by
  unfold Lexer.matchStr
  split
  · exact pres_skip l t.length
  · exact presRefl l

theorem pres_skipWhile (l : Lexer) (fn : Nat → Bool) : Pres l (l.skipWhile fn).2 :=
  pres_skip l _

theorem pres_takeWhileB (l : Lexer) (fn : Nat → Bool) : Pres l (l.takeWhileB fn).2 :=
  pres_skip l _

theorem pres_skipWS (l : Lexer) : Pres l (l.skipWS).2 :=
  pres_skip l _

theorem pres_skipTo (l : Lexer) (c : Nat) : Pres l (l.skipTo c).2 := by
  unfold Lexer.skipTo
  split
  · exact pres_skip l _
  · exact pres_skip l _

theorem pres_getRange (l : Lexer) (si : Nat) :
    (l.getRange si).2.input = l.input ∧ (l.getRange si).2.file = l.file ∧
    (l.getRange si).2.sec = l.sec ∧ (l.getRange si).2.index = l.index ∧
    (l.getRange si).2.prevEnd = l.index :=
  ⟨rfl, rfl, rfl, rfl, rfl⟩

theorem skip_index_exact (l : Lexer) (n : Nat) (h : l.index + n ≤ l.input.length) :
    (l.skip n).index = l.index + n := by
  induction n generalizing l with
  | zero => rfl
  | succ m ih =>
    have hlt : l.index < l.input.length := by omega
    obtain ⟨b, hb⟩ : ∃ b, l.input[l.index]? = some b :=
      ⟨_, List.getElem?_eq_getElem hlt⟩
    have h1 : (l.skip1).index = l.index + 1 := Lexer.skip1_index_of_some l b hb
    have h1i : (l.skip1).input = l.input := Lexer.skip1_input l
    show ((l.skip1).skip m).index = l.index + (m + 1)
    rw [ih l.skip1 (by rw [h1, h1i]; omega), h1]
    omega

theorem findIdx?_some_lt {α : Type} (p : α → Bool) (xs : List α) (i : Nat)
    (h : xs.findIdx? p = some i) : i < xs.length := by
  induction xs generalizing i with
  | nil => simp at h
  | cons x t ih =>
    rw [List.findIdx?_cons] at h
    split at h
    · cases h
      simp
    · rw [Nat.zero_add, List.findIdx?_succ] at h
      obtain ⟨j, hj, rfl⟩ := Option.map_eq_some'.mp h
      have := ih j hj
      simp
      omega

theorem findIdx?_cons_of_neg {α : Type} (p : α → Bool) (x : α) (t : List α)
    (hx : p x = false) :
    (x :: t).findIdx? p = (t.findIdx? p).map (· + 1) := by
  rw [List.findIdx?_cons, hx]
  simp [List.findIdx?_succ]

/-- skipTo lands at or before the end of the input. -/
theorem skipTo_found_lt (l : Lexer) (c : Nat) (hle : l.index ≤ l.input.length)
    (hf : (l.skipTo c).1 = true) :
    ((l.skipTo c).2).index < l.input.length := by
  unfold Lexer.skipTo at hf ⊢
  cases hfi : (l.input.drop l.index).findIdx? (fun b => b == c) with
  | none => rw [hfi] at hf; simp at hf
  | some i =>
    show (l.skip i).index < l.input.length
    have hlt := findIdx?_some_lt _ _ i hfi
    rw [List.length_drop] at hlt
    rw [skip_index_exact l i (by omega)]
    omega

/-- skipTo from a byte that is not the target strictly advances when
input remains. -/
theorem skipTo_strict (l : Lexer) (c b : Nat) (hle : l.index ≤ l.input.length)
    (hb : l.input[l.index]? = some b) (hbc : b ≠ c) :
    l.index < ((l.skipTo c).2).index := by
  have hlt : l.index < l.input.length := by
    by_contra hge
    rw [List.getElem?_eq_none (by omega)] at hb
    cases hb
  have hdrop : l.input.drop l.index = b :: l.input.drop (l.index + 1) := by
    rw [List.drop_eq_getElem_cons hlt]
    simp [List.getElem?_eq_getElem hlt] at hb
    rw [hb]
  unfold Lexer.skipTo
  rw [hdrop, findIdx?_cons_of_neg _ b _ (by simp [hbc])]
  cases hfi : (l.input.drop (l.index + 1)).findIdx? (fun x => x == c) with
  | none =>
    simp only [Option.map_none', Lexer.remaining]
    rw [skip_index_exact l (l.input.length - l.index) (by omega)]
    omega
  | some j =>
    simp only [Option.map_some']
    have hjl := findIdx?_some_lt _ _ j hfi
    rw [List.length_drop] at hjl
    rw [skip_index_exact l (j + 1) (by omega)]
    omega

/-- A skip of one from a live cursor strictly advances. -/
theorem skip1_strict (l : Lexer) (hlt : l.index < l.input.length) :
    l.index < (l.skip 1).index := by
  obtain ⟨b, hb⟩ : ∃ b, l.input[l.index]? = some b :=
    ⟨_, List.getElem?_eq_getElem hlt⟩
  rw [Lexer.skip_one, Lexer.skip1_index_of_some l b hb]
  omega

/-- The comment/blank recovery move skipTo newline then skip 1 strictly
advances whenever input remains. -/
theorem skipToNl_skip1_strict (l : Lexer) (hlt : l.index < l.input.length) :
    l.index < (((l.skipTo 10).2).skip 1).index := by
  unfold Lexer.skipTo
  cases hfi : (l.input.drop l.index).findIdx? (fun b => b == 10) with
  | some i =>
    show l.index < ((l.skip i).skip 1).index
    have hil := findIdx?_some_lt _ _ i hfi
    rw [List.length_drop] at hil
    have hsi := skip_index_exact l i (by omega)
    have h1 := skip1_strict (l.skip i) (by rw [(pres_skip l i).1, hsi]; omega)
    omega
  | none =>
    show l.index < ((l.skip l.remaining).skip 1).index
    have hsi := skip_index_exact l l.remaining (by unfold Lexer.remaining; omega)
    have hmono := (pres_skip (l.skip l.remaining) 1).2.2.2.2.1
    have hrem : l.remaining = l.input.length - l.index := rfl
    omega

/-- The lexer a scanning computation ends in, whether it returns or
aborts. -/
def outLexer {α : Type} : Except (Abort × Lexer) (α × Lexer) → Lexer
  | .ok (_, l') => l'
  | .error (_, le) => le

theorem pres_getValueFuel (fuel : Nat) :
    ∀ (l : Lexer) (acc : Bytes) (e q : Bool),
      Pres l (outLexer (getValueFuel fuel l acc e q)) := by
  induction fuel with
  | zero =>
    intro l acc e q
    exact presRefl l
  | succ f ih =>
    intro l acc e q
    rw [getValueFuel]
    simp only
    split
    all_goals repeat' split
    all_goals
      first
      | exact presRefl l
      | exact pres_skip l 1
      | exact presTrans (pres_skip l 1) (pres_skip (l.skip 1) 1)
      | exact presTrans (pres_skip l 1) (ih (l.skip 1) _ _ _)
      | exact presTrans (pres_skip l 1)
          (presTrans (pres_skip (l.skip 1) 1) (ih ((l.skip 1).skip 1) _ _ _))
      | exact presTrans (pres_skipTo l 10)
          (presTrans (pres_skip ((l.skipTo 10).2) 1) (ih (((l.skipTo 10).2).skip 1) _ _ _))

theorem pres_getSubsection (l : Lexer) :
    ∀ s l', l.getSubsection = .ok (some (s, l')) → Pres l l' := by
  intro s l' h
  unfold Lexer.getSubsection at h
  split at h
  · cases h
  · split at h
    · cases h
    · cases h
    · cases h
      exact pres_skip l _

theorem matchStr_eq_true (l : Lexer) (t : Bytes) (l2 : Lexer)
    (h : l.matchStr t = (true, l2)) : l2.index = l.index + t.length := by
  unfold Lexer.matchStr at h
  split at h
  · rename_i hc
    cases h
    rcases Nat.eq_zero_or_pos t.length with hz | hp
    · rw [hz]
      rfl
    · exact skip_index_exact l t.length (by
        have := hc.1
        unfold Lexer.remaining at this
        omega)
  · cases h

theorem getSection_err (l : Lexer) (a : Abort) (le : Lexer)
    (h : l.getSection = .error (a, le)) : Pres l le ∧ l.index < le.index := by
  unfold Lexer.getSection at h
  split at h
  · cases h
  · rename_i l1 heqm
    have hp1 : Pres l l1 := by
      have := pres_matchStr l [91]
      rwa [heqm] at this
    have hi1 : l1.index = l.index + 1 := matchStr_eq_true l [91] l1 heqm
    split at h
    rename_i name l2 heqt
    have hp2 : Pres l1 l2 := by
      have := pres_takeWhileB l1 isKeyChar
      rwa [heqt] at this
    split at h
    · cases h
      exact ⟨presTrans hp1 hp2, by have := hp2.2.2.2.2.1; omega⟩
    · split at h
      · cases h
      · split at h
        · rename_i l3 heqw
          have hp3 : Pres l2 l3 := by
            have := pres_skipWS l2
            rwa [heqw] at this
          cases h
          exact ⟨presTrans hp1 (presTrans hp2 hp3),
            by have h2 := hp2.2.2.2.2.1; have h3 := hp3.2.2.2.2.1; omega⟩
        · rename_i l3 heqw
          have hp3 : Pres l2 l3 := by
            have := pres_skipWS l2
            rwa [heqw] at this
          split at h
          · cases h
            exact ⟨presTrans hp1 (presTrans hp2 hp3),
              by have h2 := hp2.2.2.2.2.1; have h3 := hp3.2.2.2.2.1; omega⟩
          · cases h
            exact ⟨presTrans hp1 (presTrans hp2 hp3),
              by have h2 := hp2.2.2.2.2.1; have h3 := hp3.2.2.2.2.1; omega⟩
          · rename_i sub l4 heqs
            have hp4 : Pres l3 l4 := pres_getSubsection l3 sub l4 heqs
            split at h
            · cases h
              exact ⟨presTrans hp1 (presTrans hp2 (presTrans hp3 hp4)),
                by have h2 := hp2.2.2.2.2.1; have h3 := hp3.2.2.2.2.1
                   have h4 := hp4.2.2.2.2.1; omega⟩
            · cases h

theorem getSection_some (l : Lexer) (sec : IniSection) (l2out : Lexer)
    (h : l.getSection = .ok (some (sec, l2out))) :
    Pres l l2out ∧ l.index < l2out.index := by
  unfold Lexer.getSection at h
  split at h
  · cases h
  · rename_i l1 heqm
    have hp1 : Pres l l1 := by
      have := pres_matchStr l [91]
      rwa [heqm] at this
    have hi1 : l1.index = l.index + 1 := matchStr_eq_true l [91] l1 heqm
    split at h
    rename_i name l2 heqt
    have hp2 : Pres l1 l2 := by
      have := pres_takeWhileB l1 isKeyChar
      rwa [heqt] at this
    split at h
    · cases h
    · split at h
      · rename_i l3 heqm2
        have hp3 : Pres l2 l3 := by
          have := pres_matchStr l2 [93]
          rwa [heqm2] at this
        cases h
        exact ⟨presTrans hp1 (presTrans hp2 hp3),
          by have h2 := hp2.2.2.2.2.1; have h3 := hp3.2.2.2.2.1; omega⟩
      · split at h
        · cases h
        · rename_i l3 heqw
          have hp3 : Pres l2 l3 := by
            have := pres_skipWS l2
            rwa [heqw] at this
          split at h
          · cases h
          · cases h
          · rename_i sub l4 heqs
            have hp4 : Pres l3 l4 := pres_getSubsection l3 sub l4 heqs
            split at h
            · cases h
            · rename_i l5 heqm3
              have hp5 : Pres l4 l5 := by
                have := pres_matchStr l4 [93]
                rwa [heqm3] at this
              cases h
              exact ⟨presTrans hp1 (presTrans hp2 (presTrans hp3 (presTrans hp4 hp5))),
                by have h2 := hp2.2.2.2.2.1; have h3 := hp3.2.2.2.2.1
                   have h4 := hp4.2.2.2.2.1; have h5 := hp5.2.2.2.2.1; omega⟩

/-- Loop invariant of the editor-building parse: the fragments
concatenate to exactly the prefix of the input covered so far (up to
prevEnd), and prevEnd never passes the cursor, which never passes the
end. -/
def INV (l : Lexer) (ed : IniEditor) : Prop :=
  ed.toBytes = l.input.take l.prevEnd ∧ l.prevEnd ≤ l.index ∧ l.index ≤ l.input.length

theorem take_chunk (xs : Bytes) (i j : Nat) (hij : i ≤ j) :
    xs.take i ++ (xs.drop i).take (j - i) = xs.take j := by
  have h := List.take_add xs i (j - i)
  rw [Nat.add_sub_cancel' hij] at h
  exact h.symm

theorem pushBack_toBytes (ed : IniEditor) (v : Bytes) :
    ((ed.pushBack v).2).toBytes = ed.toBytes ++ v := by
  unfold IniEditor.pushBack IniEditor.toBytes
  simp

theorem appendItem_toBytes (ed : IniEditor) (r : IniRange)
    (h1 : r.PrevEndIndex ≤ r.StartIndex) (h2 : r.StartIndex ≤ r.EndIndex)
    (hbytes : ed.toBytes = r.Input.take r.PrevEndIndex) :
    ((ed.appendItem r).2.2).toBytes = r.Input.take r.EndIndex := by
  unfold IniEditor.appendItem
  by_cases hg : r.StartIndex > r.PrevEndIndex <;>
    by_cases hs : r.EndIndex > r.StartIndex <;>
      simp only [hg, hs, if_true, if_false, ite_true, ite_false] <;>
        simp only [pushBack_toBytes, hbytes]
  · rw [take_chunk r.Input r.PrevEndIndex r.StartIndex h1,
      take_chunk r.Input r.StartIndex r.EndIndex h2]
  · have he : r.StartIndex = r.EndIndex := by omega
    rw [take_chunk r.Input r.PrevEndIndex r.StartIndex h1, he]
  · have he : r.PrevEndIndex = r.StartIndex := by omega
    rw [he, take_chunk r.Input r.StartIndex r.EndIndex h2]
  · have he : r.PrevEndIndex = r.EndIndex := by omega
    rw [he]

theorem sectionStmt_INV (ed : IniEditor) (si : Nat) (kp : position) (sec : IniSection)
    (l l2 : Lexer) (hpres : Pres l l2) (hsi : si = l.index) (hinv : INV l ed) :
    (∀ ed2 l6, sectionStmt edSink ed si kp sec l2 = .ok (ed2, l6) →
      (INV l6 ed2 ∧ l6.input = l.input)) ∧
    (∀ a ed2 le, sectionStmt edSink ed si kp sec l2 = .error (a, ed2, le) → a = .crash) := by
  have hp3 : Pres l (((l2.skipWS).2.matchStr [10]).2) :=
    presTrans hpres (presTrans (pres_skipWS l2) (pres_matchStr _ _))
  obtain ⟨hq1, hq2, hq3, hq4, hq5, hq6⟩ := hp3
  obtain ⟨hb, hpe, hle⟩ := hinv
  constructor
  · intro ed2 l6 h
    unfold sectionStmt at h
    simp only [edSink] at h
    unfold edSectionHook at h
    simp only [Lexer.getRange] at h
    cases hsig : sectionBytes ed.lastSec with
    | none =>
      rw [hsig] at h
      cases h
    | some sig =>
      rw [hsig] at h
      cases h
      refine ⟨⟨?_, ?_, ?_⟩, ?_⟩
      · show ((ed.appendItem
            ⟨si, ((l2.skipWS).2.matchStr [10]).2.index,
              ((l2.skipWS).2.matchStr [10]).2.prevEnd,
              ((l2.skipWS).2.matchStr [10]).2.input⟩).2.2).toBytes =
          List.take (((l2.skipWS).2.matchStr [10]).2.index)
            (((l2.skipWS).2.matchStr [10]).2.input)
        rw [appendItem_toBytes ed _
          (by show ((l2.skipWS).2.matchStr [10]).2.prevEnd ≤ si; omega)
          (by show si ≤ ((l2.skipWS).2.matchStr [10]).2.index; omega)
          (by show ed.toBytes =
                List.take (((l2.skipWS).2.matchStr [10]).2.prevEnd)
                  (((l2.skipWS).2.matchStr [10]).2.input)
              rw [hq1, hq4]
              exact hb)]
      · show ((l2.skipWS).2.matchStr [10]).2.index ≤ ((l2.skipWS).2.matchStr [10]).2.index
        exact Nat.le_refl _
      · show ((l2.skipWS).2.matchStr [10]).2.index ≤
          (((l2.skipWS).2.matchStr [10]).2.input).length
        rw [hq1]
        exact hq6 hle
      · exact hq1
  · intro a ed2 le h
    unfold sectionStmt at h
    simp only [edSink] at h
    unfold edSectionHook at h
    simp only [Lexer.getRange] at h
    cases hsig : sectionBytes ed.lastSec with
    | none =>
      rw [hsig] at h
      cases h
      rfl
    | some sig =>
      rw [hsig] at h
      cases h

theorem finishItem_INV (ed : IniEditor) (si : Nat) (kp : position) (k : Bytes)
    (v : Option Bytes) (vp : position) (l l6 : Lexer)
    (hpres : Pres l l6) (hsi : si = l.index) (hinv : INV l ed) :
    (∀ ed2 l7, finishItem edSink ed si kp k v vp l6 = .ok (ed2, l7) →
      (INV l7 ed2 ∧ l7.input = l.input)) ∧
    (∀ a ed2 le, finishItem edSink ed si kp k v vp l6 = .error (a, ed2, le) →
      a = .crash) := by
  obtain ⟨hq1, hq2, hq3, hq4, hq5, hq6⟩ := hpres
  obtain ⟨hb, hpe, hle⟩ := hinv
  constructor
  · intro ed2 l7 h
    unfold finishItem at h
    simp only [edSink] at h
    unfold edItemHook at h
    simp only [Lexer.getRange] at h
    cases hqk : IniQKey l6.sec k with
    | none =>
      rw [hqk] at h
      cases h
    | some k2 =>
      rw [hqk] at h
      cases h
      refine ⟨⟨?_, ?_, ?_⟩, ?_⟩
      · show ((ed.appendItem ⟨si, l6.index, l6.prevEnd, l6.input⟩).2.2).toBytes =
          List.take l6.index l6.input
        rw [appendItem_toBytes ed _
          (by show l6.prevEnd ≤ si; omega)
          (by show si ≤ l6.index; omega)
          (by show ed.toBytes = List.take l6.prevEnd l6.input
              rw [hq1, hq4]
              exact hb)]
      · show l6.index ≤ l6.index
        exact Nat.le_refl _
      · show l6.index ≤ l6.input.length
        rw [hq1]
        exact hq6 hle
      · exact hq1
  · intro a ed2 le h
    unfold finishItem at h
    simp only [edSink] at h
    unfold edItemHook at h
    simp only [Lexer.getRange] at h
    cases hqk : IniQKey l6.sec k with
    | none =>
      rw [hqk] at h
      cases h
      rfl
    | some k2 =>
      rw [hqk] at h
      cases h

theorem getValue_pres_ok (l5 : Lexer) (v : Bytes) (l6 : Lexer)
    (h : l5.getValue = .ok (v, l6)) : Pres l5 l6 := by
  have hp := pres_getValueFuel (l5.input.length + 1 - l5.index) l5 [] false false
  unfold Lexer.getValue at h
  rw [h] at hp
  exact hp

theorem getValue_pres_err (l5 : Lexer) (a : Abort) (le : Lexer)
    (h : l5.getValue = .error (a, le)) : Pres l5 le := by
  have hp := pres_getValueFuel (l5.input.length + 1 - l5.index) l5 [] false false
  unfold Lexer.getValue at h
  rw [h] at hp
  exact hp

theorem keyStmt_INV (ed : IniEditor) (si : Nat) (kp : position) (l l1 : Lexer)
    (hpres : Pres l l1) (hsi : si = l.index) (hinv : INV l ed) :
    (∀ ed2 l2, keyStmt edSink ed si kp l1 = .ok (ed2, l2) →
      (INV l2 ed2 ∧ l2.input = l.input)) ∧
    (∀ pe ed2 le, keyStmt edSink ed si kp l1 = .error (.parse pe, ed2, le) →
      ed2 = ed ∧ le.input = l.input ∧ le.prevEnd = l.prevEnd ∧ l.index ≤ le.index ∧
      (l.index ≤ l.input.length → le.index ≤ l.input.length)) := by
  constructor
  · intro ed2 l2 h
    unfold keyStmt at h
    split at h
    rename_i k l2e heqk
    have hpk : Pres l l2e := presTrans hpres (by
      have := pres_takeWhileB l1 isKeyChar
      rwa [heqk] at this)
    simp only [] at h
    split at h
    · rename_i heqm
      split at h
      · cases h
      · split at h
        · rename_i lt heqs
          have hp4 : Pres l ((lt.skip 1)) := by
            refine presTrans hpk (presTrans (pres_skipWS l2e) ?_)
            refine presTrans ?_ (pres_skip lt 1)
            have := pres_skipTo ((l2e.skipWS).2) 10
            rwa [heqs] at this
          exact (finishItem_INV ed si kp k none _ l _ hp4 hsi hinv).1 ed2 l2 h
        · rename_i lt heqs
          have hp4 : Pres l lt := by
            refine presTrans hpk (presTrans (pres_skipWS l2e) ?_)
            have := pres_skipTo ((l2e.skipWS).2) 10
            rwa [heqs] at this
          exact (finishItem_INV ed si kp k none _ l _ hp4 hsi hinv).1 ed2 l2 h
    · rename_i l4 heqm
      have hp4 : Pres l l4 := presTrans hpk (by
        have := pres_matchStr ((l2e.skipWS).2) [61]
        rw [heqm] at this
        exact presTrans (pres_skipWS l2e) this)
      split at h
      · cases h
      · rename_i v l6 heqv
        have hp6 : Pres l l6 :=
          presTrans hp4 (presTrans (pres_skipWS l4) (getValue_pres_ok _ v l6 heqv))
        exact (finishItem_INV ed si kp k (some v) _ l _ hp6 hsi hinv).1 ed2 l2 h
  · intro pe ed2 le h
    unfold keyStmt at h
    split at h
    rename_i k l2e heqk
    have hpk : Pres l l2e := presTrans hpres (by
      have := pres_takeWhileB l1 isKeyChar
      rwa [heqk] at this)
    simp only [] at h
    split at h
    · rename_i heqm
      split at h
      · cases h
        have hp3 : Pres l ((l2e.skipWS).2) := presTrans hpk (pres_skipWS l2e)
        obtain ⟨e1, e2, e3, e4, e5, e6⟩ := hp3
        exact ⟨rfl, e1, e4, e5, fun hb => e6 hb⟩
      · split at h
        · rename_i lt heqs
          have hp4 : Pres l ((lt.skip 1)) := by
            refine presTrans hpk (presTrans (pres_skipWS l2e) ?_)
            refine presTrans ?_ (pres_skip lt 1)
            have := pres_skipTo ((l2e.skipWS).2) 10
            rwa [heqs] at this
          have := (finishItem_INV ed si kp k none _ l _ hp4 hsi hinv).2 _ ed2 le h
          cases this
        · rename_i lt heqs
          have hp4 : Pres l lt := by
            refine presTrans hpk (presTrans (pres_skipWS l2e) ?_)
            have := pres_skipTo ((l2e.skipWS).2) 10
            rwa [heqs] at this
          have := (finishItem_INV ed si kp k none _ l _ hp4 hsi hinv).2 _ ed2 le h
          cases this
    · rename_i l4 heqm
      have hp4 : Pres l l4 := presTrans hpk (by
        have := pres_matchStr ((l2e.skipWS).2) [61]
        rw [heqm] at this
        exact presTrans (pres_skipWS l2e) this)
      split at h
      · rename_i a2 le2 heqv
        cases h
        have hp6 : Pres l le :=
          presTrans hp4 (presTrans (pres_skipWS l4) (getValue_pres_err _ _ le heqv))
        obtain ⟨e1, e2, e3, e4, e5, e6⟩ := hp6
        exact ⟨rfl, e1, e4, e5, fun hb => e6 hb⟩
      · rename_i v l6 heqv
        have hp6 : Pres l l6 :=
          presTrans hp4 (presTrans (pres_skipWS l4) (getValue_pres_ok _ v l6 heqv))
        have := (finishItem_INV ed si kp k (some v) _ l _ hp6 hsi hinv).2 _ ed2 le h
        cases this

theorem do1body_edSink_spec (ed : IniEditor) (l : Lexer) (hinv : INV l ed) :
    (∀ ed2 l2, do1body edSink ed l = .ok (ed2, l2) →
      (INV l2 ed2 ∧ l2.input = l.input)) ∧
    (∀ pe ed2 le, do1body edSink ed l = .error (.parse pe, ed2, le) →
      ed2 = ed ∧ le.input = l.input ∧ le.prevEnd = l.prevEnd ∧ l.index ≤ le.index ∧
      (l.index ≤ l.input.length → le.index ≤ l.input.length)) := by
  have hp1 : Pres l ((l.skipWS).2) := pres_skipWS l
  constructor
  · intro ed2 l2 h
    unfold do1body at h
    simp only [] at h
    split at h
    · cases h
    · rename_i sec l2s heqg
      have hps : Pres l l2s := presTrans hp1 ((getSection_some _ sec l2s heqg).1)
      exact (sectionStmt_INV ed l.index _ sec l l2s hps rfl hinv).1 ed2 l2 h
    · split at h
      · exact (keyStmt_INV ed l.index _ l _ hp1 rfl hinv).1 ed2 l2 h
      · obtain ⟨hb, hpe, hle⟩ := hinv
        have hpc : Pres l ((((l.skipWS).2.skipTo 10).2).skip 1) :=
          presTrans hp1 (presTrans (pres_skipTo _ 10) (pres_skip _ 1))
        obtain ⟨i1, f1, s1, p1, x1, y1⟩ := hpc
        split at h
        · cases h
          exact ⟨⟨by rw [i1, p1]; exact hb, by omega, by rw [i1]; exact y1 hle⟩, i1⟩
        · cases h
          exact ⟨⟨by rw [i1, p1]; exact hb, by omega, by rw [i1]; exact y1 hle⟩, i1⟩
        · cases h
          exact ⟨⟨by rw [i1, p1]; exact hb, by omega, by rw [i1]; exact y1 hle⟩, i1⟩
        · cases h
  · intro pe ed2 le h
    unfold do1body at h
    simp only [] at h
    split at h
    · rename_i a le2 heqg
      cases h
      have hpg : Pres l le := presTrans hp1 ((getSection_err _ _ le heqg).1)
      obtain ⟨i1, f1, s1, p1, x1, y1⟩ := hpg
      exact ⟨rfl, i1, p1, x1, y1⟩
    · rename_i sec l2s heqg
      have hps : Pres l l2s := presTrans hp1 ((getSection_some _ sec l2s heqg).1)
      have := (sectionStmt_INV ed l.index _ sec l l2s hps rfl hinv).2 _ ed2 le h
      cases this
    · split at h
      · exact (keyStmt_INV ed l.index _ l _ hp1 rfl hinv).2 pe ed2 le h
      · split at h
        · cases h
        · cases h
        · cases h
        · cases h
          obtain ⟨i1, f1, s1, p1, x1, y1⟩ := hp1
          exact ⟨rfl, i1, p1, x1, y1⟩

theorem do1_INV (ed : IniEditor) (l : Lexer) (hinv : INV l ed) :
    ∀ e ed2 l2, do1 edSink ed l = .ok e ed2 l2 →
      (INV l2 ed2 ∧ l2.input = l.input) := by
  intro e ed2 l2 h
  unfold do1 at h
  split at h
  · rename_i st2 l2b heqb
    cases h
    exact (do1body_edSink_spec ed l hinv).1 ed2 l2 heqb
  · rename_i pe st2 le heqb
    cases h
    obtain ⟨hed, i1, p1, x1, y1⟩ := (do1body_edSink_spec ed l hinv).2 pe ed2 le heqb
    obtain ⟨hb, hpe, hle⟩ := hinv
    obtain ⟨j1, g1, t1, q1, z1, w1⟩ := pres_skipTo le 10
    refine ⟨⟨?_, ?_, ?_⟩, ?_⟩
    · rw [hed, j1, i1, q1, p1]
      exact hb
    · rw [q1, p1]
      omega
    · rw [j1, i1]
      have hle2 : le.index ≤ le.input.length := by rw [i1]; exact y1 hle
      have := w1 hle2
      rw [i1] at this
      exact this
    · rw [j1, i1]
  · cases h
  · cases h

theorem toBytes_update (ed : IniEditor) (se : List (Bytes × Option Nat))
    (ls : Option IniSection) :
    ({ ed with secEnd := se, lastSec := ls }).toBytes = ed.toBytes := rfl

theorem edDoneHook_toBytes_gen (ed : IniEditor) (r : IniRange)
    (h1 : r.PrevEndIndex ≤ r.StartIndex) (h2 : r.StartIndex ≤ r.EndIndex)
    (hbytes : ed.toBytes = r.Input.take r.PrevEndIndex) :
    ∀ ed2, edDoneHook ed r = some ed2 → ed2.toBytes = r.Input.take r.EndIndex := by
  intro ed2 h
  unfold edDoneHook at h
  simp only [] at h
  have hb1 : ((ed.appendItem r).2.2).toBytes = r.Input.take r.EndIndex :=
    appendItem_toBytes ed r h1 h2 hbytes
  split at h
  · cases h
  · split at h
    · cases h
      rw [toBytes_update]
      exact hb1
    · cases h
      rw [toBytes_update, pushBack_toBytes]
      simp [hb1]

theorem doLoopF_exit_toBytes (ed ed2 : IniEditor) (l : Lexer)
    (hinv : INV l ed) (hge : ¬ l.index < l.input.length)
    (hd : edSink.done ed ⟨l.index, l.index, l.prevEnd, l.input⟩ = some ed2) :
    ed2.toBytes = l.input := by
  obtain ⟨hb, hpe, hle⟩ := hinv
  have hix : l.index = l.input.length := by omega
  have := edDoneHook_toBytes_gen ed ⟨l.index, l.index, l.prevEnd, l.input⟩
    hpe (Nat.le_refl _) hb ed2 hd
  rw [this]
  simp only []
  rw [hix, List.take_length]

theorem doLoopF_INV (fuel : Nat) :
    ∀ ed l errs n err ed2 lf k, INV l ed →
      doLoopF edSink fuel ed l errs n = .done err ed2 lf k →
      ed2.toBytes = l.input := by
  induction fuel with
  | zero =>
    intro ed l errs n err ed2 lf k hinv h
    by_cases hlt : l.index < l.input.length
    · rw [doLoopF, if_pos hlt] at h
      cases h
    · rw [doLoopF, if_neg hlt] at h
      rw [show l.getRange l.index =
          ((⟨l.index, l.index, l.prevEnd, l.input⟩ : IniRange),
            { l with prevEnd := l.index }) from rfl] at h
      simp only [] at h
      cases hd : edSink.done ed ⟨l.index, l.index, l.prevEnd, l.input⟩ with
      | none =>
        rw [hd] at h
        cases h
      | some st2 =>
        rw [hd] at h
        cases h
        exact doLoopF_exit_toBytes ed ed2 l hinv hlt hd
  | succ f ih =>
    intro ed l errs n err ed2 lf k hinv h
    by_cases hlt : l.index < l.input.length
    · rw [doLoopF, if_pos hlt] at h
      cases hdo : do1 edSink ed l with
      | ok e st2 l2 =>
        rw [hdo] at h
        have hnext := do1_INV ed l hinv e st2 l2 hdo
        have := ih st2 l2 (errs ++ e.toList) (n + 1) err ed2 lf k hnext.1 h
        rw [this, hnext.2]
      | crashed st2 l2 =>
        rw [hdo] at h
        cases h
      | fuelOut =>
        rw [hdo] at h
        cases h
    · rw [doLoopF, if_neg hlt] at h
      rw [show l.getRange l.index =
          ((⟨l.index, l.index, l.prevEnd, l.input⟩ : IniRange),
            { l with prevEnd := l.index }) from rfl] at h
      simp only [] at h
      cases hd : edSink.done ed ⟨l.index, l.index, l.prevEnd, l.input⟩ with
      | none =>
        rw [hd] at h
        cases h
      | some st2 =>
        rw [hd] at h
        cases h
        exact doLoopF_exit_toBytes ed ed2 l hinv hlt hd

/-- C1: any input that Build (NewIniEdit) parses to completion with zero
recorded syntax errors serializes, with no edits applied, back to the
original byte string: the gap and statement fragments appended by the
hooks concatenate to exactly the input. -/
theorem claim_C1_roundtrip (file contents : Bytes) (ed : IniEditor)
    (h : cleanParse file contents = some ed) : ed.toBytes = contents := by
  unfold cleanParse at h
  split at h
  · rename_i ed1 l1 k1 heq
    cases h
    have hinv0 : INV ⟨0, 0, 0, contents, file, none, 0⟩ emptyEditor :=
      ⟨rfl, Nat.le_refl 0, Nat.zero_le _⟩
    have hd : doLoopF edSink contents.length emptyEditor
        ⟨0, 0, 0, contents, file, none, 0⟩ [] 0 = .done none ed l1 k1 := heq
    exact doLoopF_INV contents.length emptyEditor ⟨0, 0, 0, contents, file, none, 0⟩
      [] 0 none ed l1 k1 hinv0 hd
  · cases h

def edC1 : IniEditor :=
  { fragments := [(0, [91, 97, 93, 10]), (1, [])]
    nextId := 2
    secEnd := [([], some 0), ([91, 97, 93], some 1)]
    values := []
    lastSec := none }

theorem claim_C1_witness :
    cleanParse [] [91, 97, 93, 10] = some edC1 ∧ edC1.toBytes = [91, 97, 93, 10] :=
  ⟨by decide, claim_C1_roundtrip [] [91, 97, 93, 10] edC1 (by decide)⟩

theorem peek_some_lt (l : Lexer) (b : Nat) (h : l.peek = some b) :
    l.index < l.input.length := by
  unfold Lexer.peek at h
  by_contra hge
  rw [List.getElem?_eq_none (by omega)] at h
  cases h

theorem stepFacts_skip1 (l : Lexer) (hlt : l.index < l.input.length) :
    (l.skip 1).input = l.input ∧ l.index < (l.skip 1).index ∧
      (l.skip 1).index ≤ l.input.length := by
  have hsi := skip_index_exact l 1 (by omega)
  exact ⟨(pres_skip l 1).1, by omega, by omega⟩

theorem stepFacts_skip2 (l : Lexer) (hlt : l.index < l.input.length) :
    ((l.skip 1).skip 1).input = l.input ∧ l.index < ((l.skip 1).skip 1).index ∧
      ((l.skip 1).skip 1).index ≤ l.input.length := by
  obtain ⟨f1, f2, f3⟩ := stepFacts_skip1 l hlt
  obtain ⟨i1, g1, s1, p1, x1, y1⟩ := pres_skip (l.skip 1) 1
  refine ⟨by rw [i1, f1], by omega, ?_⟩
  have := y1 (by rw [f1]; exact f3)
  rw [f1] at this
  exact this

theorem stepFacts_skipToNl (l : Lexer) (hlt : l.index < l.input.length) :
    (((l.skipTo 10).2).skip 1).input = l.input ∧
      l.index < (((l.skipTo 10).2).skip 1).index ∧
      (((l.skipTo 10).2).skip 1).index ≤ l.input.length := by
  have hstrict := skipToNl_skip1_strict l hlt
  obtain ⟨i1, g1, s1, p1, x1, y1⟩ := pres_skipTo l 10
  obtain ⟨i2, g2, s2, p2, x2, y2⟩ := pres_skip ((l.skipTo 10).2) 1
  refine ⟨by rw [i2, i1], hstrict, ?_⟩
  have hb1 : ((l.skipTo 10).2).index ≤ l.input.length := y1 (by omega)
  have := y2 (by rw [i1]; exact hb1)
  rw [i1] at this
  exact this

set_option maxHeartbeats 2000000 in
theorem getValueFuel_no_fuelOut (fuel : Nat) :
    ∀ (l : Lexer) (acc : Bytes) (e q : Bool),
      l.index ≤ l.input.length → l.input.length + 1 ≤ fuel + l.index →
      ∀ a le, getValueFuel fuel l acc e q = .error (a, le) → a ≠ .fuelOut := by
  induction fuel with
  | zero =>
    intro l acc e q hle hfuel a le h
    exact absurd hfuel (by omega)
  | succ fuel ih =>
    intro l acc e q hle hfuel a le h
    rw [getValueFuel] at h
    simp only [] at h
    cases hc : l.peek with
    | none =>
      rw [hc] at h
      simp only [reduceCtorEq, if_false, ite_false, or_false, Ne, not_false_iff,
        not_true, false_and, and_false, if_true, ite_true, or_true, if_neg, eq_self_iff_true] at h
      split at h
      · cases h
        exact fun hx => Abort.noConfusion hx
      · split at h
        · cases h
          exact fun hx => Abort.noConfusion hx
        · cases h
    | some b =>
      have hlt : l.index < l.input.length := peek_some_lt l b hc
      rw [hc] at h
      repeat' split at h
      all_goals try (cases h)
      all_goals first
        | exact fun hx => Abort.noConfusion hx
        | (obtain ⟨f1, f2, f3⟩ := stepFacts_skip1 l hlt
           refine ih _ _ _ _ ?_ ?_ a le h <;> rw [f1] <;> omega)
        | (obtain ⟨f1, f2, f3⟩ := stepFacts_skip2 l hlt
           refine ih _ _ _ _ ?_ ?_ a le h <;> rw [f1] <;> omega)
        | (obtain ⟨f1, f2, f3⟩ := stepFacts_skipToNl l hlt
           refine ih _ _ _ _ ?_ ?_ a le h <;> rw [f1] <;> omega)

theorem subEnd_not_fuelOut (inp : Bytes) (i : Nat) (acc : Bytes) :
    ∀ a, subEnd inp i acc = .error a → a ≠ .fuelOut := by
  intro a h
  unfold subEnd at h
  split at h
  · cases h
    exact fun hx => Abort.noConfusion hx
  · split at h <;> cases h

theorem subLoopF_no_fuelOut (fuel : Nat) :
    ∀ (inp : Bytes) (i : Nat) (acc : Bytes),
      inp.length ≤ fuel + i → 1 ≤ fuel →
      ∀ a, subLoopF fuel inp i acc = .error a → a ≠ .fuelOut := by
  induction fuel with
  | zero =>
    intro inp i acc hb h1
    exact absurd h1 (by omega)
  | succ fuel ih =>
    intro inp i acc hb h1 a h
    rw [subLoopF] at h
    split at h
    · rename_i hilt
      split at h
      · cases h
        exact fun hx => Abort.noConfusion hx
      · split at h
        · exact subEnd_not_fuelOut inp i acc a h
        · split at h
          · cases h
          · split at h
            · split at h
              · cases h
                exact fun hx => Abort.noConfusion hx
              · exact ih inp (i + 2) _ (by omega) (by omega) a h
            · exact ih inp (i + 1) _ (by omega) (by omega) a h
    · exact subEnd_not_fuelOut inp i acc a h

theorem getSubsection_not_fuelOut (l : Lexer) :
    ∀ a, l.getSubsection = .error a → a ≠ .fuelOut := by
  intro a h
  unfold Lexer.getSubsection at h
  split at h
  · cases h
  · split at h
    · rename_i heq
      cases h
      exact subLoopF_no_fuelOut (l.input.length + 1) l.input (l.index + 1) []
        (by omega) (by omega) a heq
    · cases h
    · cases h

theorem getSection_not_fuelOut (l : Lexer) :
    ∀ a le, l.getSection = .error (a, le) → a ≠ .fuelOut := by
  intro a le h
  unfold Lexer.getSection at h
  split at h
  · cases h
  · split at h
    split at h
    · cases h
      exact fun hx => Abort.noConfusion hx
    · split at h
      · cases h
      · split at h
        · cases h
          exact fun hx => Abort.noConfusion hx
        · split at h
          · rename_i heq
            cases h
            exact getSubsection_not_fuelOut _ a heq
          · cases h
            exact fun hx => Abort.noConfusion hx
          · split at h
            · cases h
              exact fun hx => Abort.noConfusion hx
            · cases h

theorem getValue_not_fuelOut (l : Lexer) (hle : l.index ≤ l.input.length) :
    ∀ a le, l.getValue = .error (a, le) → a ≠ .fuelOut := by
  intro a le h
  exact getValueFuel_no_fuelOut (l.input.length + 1 - l.index) l [] false false
    hle (by omega) a le h

theorem isKeyChar_of_isAlpha (b : Nat) (h : isAlpha b = true) : isKeyChar b = true := by
  unfold isKeyChar
  rw [h]
  rfl

theorem takeWhileB_alpha_strict (l : Lexer) (b : Nat)
    (hpk : l.peek = some b) (hb : isAlpha b = true) :
    l.index < ((l.takeWhileB isKeyChar).2).index := by
  have hlt : l.index < l.input.length := peek_some_lt l b hpk
  have hdrop : l.input.drop l.index = b :: l.input.drop (l.index + 1) := by
    rw [List.drop_eq_getElem_cons hlt]
    unfold Lexer.peek at hpk
    simp [List.getElem?_eq_getElem hlt] at hpk
    rw [hpk]
  unfold Lexer.takeWhileB
  simp only [hdrop, List.takeWhile_cons, isKeyChar_of_isAlpha b hb, if_true]
  show l.index < (l.skip ((b :: _).length)).index
  rw [List.length_cons]
  show l.index <
    (Lexer.skip l.skip1 ((l.input.drop (l.index + 1)).takeWhile isKeyChar).length).index
  have h1 := skip1_strict l hlt
  have h1b : l.index < l.skip1.index := h1
  have hm :=
    (pres_skip l.skip1 ((l.input.drop (l.index + 1)).takeWhile isKeyChar).length).2.2.2.2.1
  omega

theorem sectionStmt_progress {σ : Type} (sink : IniSink σ) (st : σ) (si : Nat)
    (kp : position) (sec : IniSection) (l2 : Lexer) :
    ∀ st2 l6, sectionStmt sink st si kp sec l2 = .ok (st2, l6) →
      l2.index ≤ l6.index ∧ l6.input = l2.input ∧
        (l2.index ≤ l2.input.length → l6.index ≤ l2.input.length) := by
  intro st2 l6 h
  have hp : Pres l2 (((l2.skipWS).2.matchStr [10]).2) :=
    presTrans (pres_skipWS l2) (pres_matchStr _ _)
  unfold sectionStmt at h
  simp only [] at h
  split at h
  · cases h
  · cases h
  · cases h
    exact ⟨hp.2.2.2.2.1, hp.1, hp.2.2.2.2.2⟩

theorem finishItem_progress {σ : Type} (sink : IniSink σ) (st : σ) (si : Nat)
    (kp : position) (k : Bytes) (v : Option Bytes) (vp : position) (l6 : Lexer) :
    ∀ st2 l7, finishItem sink st si kp k v vp l6 = .ok (st2, l7) →
      l7.index = l6.index ∧ l7.input = l6.input := by
  intro st2 l7 h
  unfold finishItem at h
  simp only [] at h
  split at h
  · cases h
  · cases h
  · cases h
  · cases h
    exact ⟨rfl, rfl⟩

theorem finishItem_err_spec {σ : Type} (sink : IniSink σ) (st : σ) (si : Nat)
    (kp : position) (k : Bytes) (v : Option Bytes) (vp : position) (l6 : Lexer) :
    ∀ a st2 le, finishItem sink st si kp k v vp l6 = .error (a, st2, le) →
      a ≠ .fuelOut ∧ le.index = l6.index ∧ le.input = l6.input := by
  intro a st2 le h
  unfold finishItem at h
  simp only [] at h
  split at h
  · cases h
    exact ⟨fun hx => Abort.noConfusion hx, rfl, rfl⟩
  · cases h
    exact ⟨fun hx => Abort.noConfusion hx, rfl, rfl⟩
  · cases h
    exact ⟨fun hx => Abort.noConfusion hx, rfl, rfl⟩
  · cases h

theorem sectionStmt_err_spec {σ : Type} (sink : IniSink σ) (st : σ) (si : Nat)
    (kp : position) (sec : IniSection) (l2 : Lexer) :
    ∀ a st2 le, sectionStmt sink st si kp sec l2 = .error (a, st2, le) →
      a ≠ .fuelOut ∧ l2.index ≤ le.index ∧ le.input = l2.input ∧
        (l2.index ≤ l2.input.length → le.index ≤ l2.input.length) := by
  intro a st2 le h
  have hp : Pres l2 (((l2.skipWS).2.matchStr [10]).2) :=
    presTrans (pres_skipWS l2) (pres_matchStr _ _)
  unfold sectionStmt at h
  simp only [] at h
  split at h
  · cases h
    exact ⟨fun hx => Abort.noConfusion hx, hp.2.2.2.2.1, hp.1, hp.2.2.2.2.2⟩
  · cases h
    exact ⟨fun hx => Abort.noConfusion hx, hp.2.2.2.2.1, hp.1, hp.2.2.2.2.2⟩
  · cases h

theorem keyStmt_spec {σ : Type} (sink : IniSink σ) (st : σ) (si : Nat)
    (kp : position) (l1 : Lexer) (b : Nat)
    (hpk : l1.peek = some b) (hb : isAlpha b = true)
    (hle : l1.index ≤ l1.input.length) :
    (∀ st2 l2, keyStmt sink st si kp l1 = .ok (st2, l2) →
       l1.index < l2.index ∧ l2.input = l1.input ∧ l2.index ≤ l1.input.length) ∧
    (∀ a st2 le, keyStmt sink st si kp l1 = .error (a, st2, le) →
       a ≠ .fuelOut ∧ l1.index < le.index ∧ le.input = l1.input ∧
         le.index ≤ l1.input.length) := by
  constructor
  · intro st2 l2 h
    unfold keyStmt at h
    split at h
    rename_i k l2e heqk
    have hstrict : l1.index < l2e.index := by
      have := takeWhileB_alpha_strict l1 b hpk hb
      rwa [heqk] at this
    have hp1 : Pres l1 l2e := by
      have := pres_takeWhileB l1 isKeyChar
      rwa [heqk] at this
    simp only [] at h
    split at h
    · rename_i heqm
      split at h
      · cases h
      · split at h
        · rename_i lt heqs
          have hpB : Pres l2e ((lt.skip 1)) := by
            refine presTrans (pres_skipWS l2e) ?_
            refine presTrans ?_ (pres_skip lt 1)
            have := pres_skipTo ((l2e.skipWS).2) 10
            rwa [heqs] at this
          have hpA : Pres l1 ((lt.skip 1)) := presTrans hp1 hpB
          obtain ⟨hei, heinp⟩ := finishItem_progress sink st si kp k none _ _ st2 l2 h
          refine ⟨by have := hpB.2.2.2.2.1; omega, by rw [heinp, hpA.1],
            by rw [hei]; exact hpA.2.2.2.2.2 hle⟩
        · rename_i lt heqs
          have hpB : Pres l2e lt := by
            refine presTrans (pres_skipWS l2e) ?_
            have := pres_skipTo ((l2e.skipWS).2) 10
            rwa [heqs] at this
          have hpA : Pres l1 lt := presTrans hp1 hpB
          obtain ⟨hei, heinp⟩ := finishItem_progress sink st si kp k none _ _ st2 l2 h
          refine ⟨by have := hpB.2.2.2.2.1; omega, by rw [heinp, hpA.1],
            by rw [hei]; exact hpA.2.2.2.2.2 hle⟩
    · rename_i l4 heqm
      have hpB0 : Pres l2e l4 := by
        have := pres_matchStr ((l2e.skipWS).2) [61]
        rw [heqm] at this
        exact presTrans (pres_skipWS l2e) this
      split at h
      · cases h
      · rename_i v l6 heqv
        have hpB : Pres l2e l6 :=
          presTrans hpB0 (presTrans (pres_skipWS l4) (getValue_pres_ok _ v l6 heqv))
        have hpA : Pres l1 l6 := presTrans hp1 hpB
        obtain ⟨hei, heinp⟩ := finishItem_progress sink st si kp k (some v) _ _ st2 l2 h
        refine ⟨by have := hpB.2.2.2.2.1; omega, by rw [heinp, hpA.1],
          by rw [hei]; exact hpA.2.2.2.2.2 hle⟩
  · intro a st2 le h
    unfold keyStmt at h
    split at h
    rename_i k l2e heqk
    have hstrict : l1.index < l2e.index := by
      have := takeWhileB_alpha_strict l1 b hpk hb
      rwa [heqk] at this
    have hp1 : Pres l1 l2e := by
      have := pres_takeWhileB l1 isKeyChar
      rwa [heqk] at this
    simp only [] at h
    split at h
    · rename_i heqm
      split at h
      · cases h
        have hpB : Pres l2e ((l2e.skipWS).2) := pres_skipWS l2e
        have hpA : Pres l1 ((l2e.skipWS).2) := presTrans hp1 hpB
        exact ⟨fun hx => Abort.noConfusion hx, by have := hpB.2.2.2.2.1; omega,
          hpA.1, hpA.2.2.2.2.2 hle⟩
      · split at h
        · rename_i lt heqs
          have hpB : Pres l2e ((lt.skip 1)) := by
            refine presTrans (pres_skipWS l2e) ?_
            refine presTrans ?_ (pres_skip lt 1)
            have := pres_skipTo ((l2e.skipWS).2) 10
            rwa [heqs] at this
          have hpA : Pres l1 ((lt.skip 1)) := presTrans hp1 hpB
          obtain ⟨hnf, hei, heinp⟩ := finishItem_err_spec sink st si kp k none _ _ a st2 le h
          refine ⟨hnf, by have := hpB.2.2.2.2.1; omega, by rw [heinp, hpA.1],
            by rw [hei]; exact hpA.2.2.2.2.2 hle⟩
        · rename_i lt heqs
          have hpB : Pres l2e lt := by
            refine presTrans (pres_skipWS l2e) ?_
            have := pres_skipTo ((l2e.skipWS).2) 10
            rwa [heqs] at this
          have hpA : Pres l1 lt := presTrans hp1 hpB
          obtain ⟨hnf, hei, heinp⟩ := finishItem_err_spec sink st si kp k none _ _ a st2 le h
          refine ⟨hnf, by have := hpB.2.2.2.2.1; omega, by rw [heinp, hpA.1],
            by rw [hei]; exact hpA.2.2.2.2.2 hle⟩
    · rename_i l4 heqm
      have hpB0 : Pres l2e l4 := by
        have := pres_matchStr ((l2e.skipWS).2) [61]
        rw [heqm] at this
        exact presTrans (pres_skipWS l2e) this
      split at h
      · rename_i a2 le2 heqv
        cases h
        have hp5 : Pres l2e (((l4.skipWS).2)) := presTrans hpB0 (pres_skipWS l4)
        have hpB : Pres l2e le := presTrans hp5 (getValue_pres_err _ _ le heqv)
        have hpA : Pres l1 le := presTrans hp1 hpB
        have hnf : a ≠ .fuelOut := by
          refine getValue_not_fuelOut ((l4.skipWS).2) ?_ a le heqv
          have := (presTrans hp1 hp5).2.2.2.2.2 hle
          rw [(presTrans hp1 hp5).1]
          exact this
        exact ⟨hnf, by have := hpB.2.2.2.2.1; omega, hpA.1, hpA.2.2.2.2.2 hle⟩
      · rename_i v l6 heqv
        have hpB : Pres l2e l6 :=
          presTrans hpB0 (presTrans (pres_skipWS l4) (getValue_pres_ok _ v l6 heqv))
        have hpA : Pres l1 l6 := presTrans hp1 hpB
        obtain ⟨hnf, hei, heinp⟩ := finishItem_err_spec sink st si kp k (some v) _ _ a st2 le h
        refine ⟨hnf, by have := hpB.2.2.2.2.1; omega, by rw [heinp, hpA.1],
          by rw [hei]; exact hpA.2.2.2.2.2 hle⟩

theorem peek_none_ge (l : Lexer) (h : l.peek = none) :
    l.input.length ≤ l.index := by
  unfold Lexer.peek at h
  by_contra hlt
  rw [List.getElem?_eq_getElem (by omega)] at h
  cases h

theorem do1body_ok_progress {σ : Type} (sink : IniSink σ) (st : σ) (l : Lexer)
    (hlt : l.index < l.input.length) :
    ∀ st2 l2, do1body sink st l = .ok (st2, l2) →
      l.index < l2.index ∧ l2.input = l.input ∧ l2.index ≤ l.input.length := by
  intro st2 l2 h
  have hp1 : Pres l ((l.skipWS).2) := pres_skipWS l
  have hle : l.index ≤ l.input.length := by omega
  unfold do1body at h
  simp only [] at h
  split at h
  · cases h
  · rename_i sec l2s heqg
    obtain ⟨hpg, hgs⟩ := getSection_some _ sec l2s heqg
    have hpA : Pres l l2s := presTrans hp1 hpg
    obtain ⟨hs1, hs2, hs3⟩ := sectionStmt_progress sink st l.index _ sec l2s st2 l2 h
    have hb2 : l2s.index ≤ l2s.input.length := by
      rw [hpA.1]
      exact hpA.2.2.2.2.2 hle
    have hb3 := hs3 hb2
    rw [hpA.1] at hb3
    refine ⟨?_, by rw [hs2, hpA.1], hb3⟩
    have hm := hp1.2.2.2.2.1
    omega
  · split at h
    · rename_i hα
      cases hc : ((l.skipWS).2).peek with
      | none =>
        rw [hc] at hα
        cases hα
      | some b =>
        rw [hc] at hα
        have hle1 : ((l.skipWS).2).index ≤ ((l.skipWS).2).input.length := by
          rw [hp1.1]
          exact hp1.2.2.2.2.2 hle
        obtain ⟨hk1, hk2, hk3⟩ :=
          (keyStmt_spec sink st l.index _ _ b hc hα hle1).1 st2 l2 h
        rw [hp1.1] at hk2 hk3
        have hm := hp1.2.2.2.2.1
        exact ⟨by omega, hk2, hk3⟩
    · split at h
      · rename_i hc
        cases h
        obtain ⟨f1, f2, f3⟩ :=
          stepFacts_skipToNl ((l.skipWS).2) (peek_some_lt _ _ hc)
        rw [hp1.1] at f1 f3
        have hm := hp1.2.2.2.2.1
        exact ⟨by omega, f1, f3⟩
      · rename_i hc
        cases h
        obtain ⟨f1, f2, f3⟩ :=
          stepFacts_skipToNl ((l.skipWS).2) (peek_some_lt _ _ hc)
        rw [hp1.1] at f1 f3
        have hm := hp1.2.2.2.2.1
        exact ⟨by omega, f1, f3⟩
      · rename_i hc
        cases h
        obtain ⟨f1, f2, f3⟩ :=
          stepFacts_skipToNl ((l.skipWS).2) (peek_some_lt _ _ hc)
        rw [hp1.1] at f1 f3
        have hm := hp1.2.2.2.2.1
        exact ⟨by omega, f1, f3⟩
      · cases h

theorem do1body_not_fuelOut {σ : Type} (sink : IniSink σ) (st : σ) (l : Lexer)
    (hlt : l.index < l.input.length) :
    ∀ a st2 le, do1body sink st l = .error (a, st2, le) → a ≠ .fuelOut := by
  intro a st2 le h
  have hp1 : Pres l ((l.skipWS).2) := pres_skipWS l
  have hle : l.index ≤ l.input.length := by omega
  unfold do1body at h
  simp only [] at h
  split at h
  · rename_i a2 le2 heqg
    cases h
    exact getSection_not_fuelOut _ a le heqg
  · rename_i sec l2s heqg
    exact (sectionStmt_err_spec sink st l.index _ sec l2s a st2 le h).1
  · split at h
    · rename_i hα
      cases hc : ((l.skipWS).2).peek with
      | none =>
        rw [hc] at hα
        cases hα
      | some b =>
        rw [hc] at hα
        have hle1 : ((l.skipWS).2).index ≤ ((l.skipWS).2).input.length := by
          rw [hp1.1]
          exact hp1.2.2.2.2.2 hle
        exact ((keyStmt_spec sink st l.index _ _ b hc hα hle1).2 a st2 le h).1
    · split at h
      · cases h
      · cases h
      · cases h
      · cases h
        exact fun hx => Abort.noConfusion hx

theorem do1body_err_progress {σ : Type} (sink : IniSink σ) (st : σ) (l : Lexer)
    (hlt : l.index < l.input.length) :
    ∀ pe st2 le, do1body sink st l = .error (.parse pe, st2, le) →
      l.index < ((le.skipTo 10).2).index ∧ ((le.skipTo 10).2).input = l.input ∧
        ((le.skipTo 10).2).index ≤ l.input.length := by
  intro pe st2 le h
  have hp1 : Pres l ((l.skipWS).2) := pres_skipWS l
  have hle : l.index ≤ l.input.length := by omega
  unfold do1body at h
  simp only [] at h
  split at h
  · rename_i a2 le2 heqg
    cases h
    obtain ⟨hpg, hgs⟩ := getSection_err _ _ le heqg
    have hpA : Pres l le := presTrans hp1 hpg
    obtain ⟨j1, g1, t1, q1, z1, w1⟩ := pres_skipTo le 10
    have hble : le.index ≤ l.input.length := hpA.2.2.2.2.2 hle
    have hbs : ((le.skipTo 10).2).index ≤ le.input.length := w1 (by rw [hpA.1]; exact hble)
    rw [hpA.1] at hbs
    have hm := hp1.2.2.2.2.1
    exact ⟨by omega, by rw [j1, hpA.1], hbs⟩
  · rename_i sec l2s heqg
    obtain ⟨hpg, hgs⟩ := getSection_some _ sec l2s heqg
    have hpA : Pres l l2s := presTrans hp1 hpg
    obtain ⟨hnf, he1, he2, he3⟩ :=
      sectionStmt_err_spec sink st l.index _ sec l2s _ st2 le h
    have hb2 : l2s.index ≤ l2s.input.length := by
      rw [hpA.1]
      exact hpA.2.2.2.2.2 hle
    have hb3 := he3 hb2
    obtain ⟨j1, g1, t1, q1, z1, w1⟩ := pres_skipTo le 10
    have hbs : ((le.skipTo 10).2).index ≤ le.input.length :=
      w1 (by rw [he2]; exact hb3)
    rw [he2, hpA.1] at hbs
    have hm := hp1.2.2.2.2.1
    exact ⟨by omega, by rw [j1, he2, hpA.1], hbs⟩
  · split at h
    · rename_i hα
      cases hc : ((l.skipWS).2).peek with
      | none =>
        rw [hc] at hα
        cases hα
      | some b =>
        rw [hc] at hα
        have hle1 : ((l.skipWS).2).index ≤ ((l.skipWS).2).input.length := by
          rw [hp1.1]
          exact hp1.2.2.2.2.2 hle
        obtain ⟨hnf, hk1, hk2, hk3⟩ :=
          (keyStmt_spec sink st l.index _ _ b hc hα hle1).2 _ st2 le h
        rw [hp1.1] at hk2 hk3
        obtain ⟨j1, g1, t1, q1, z1, w1⟩ := pres_skipTo le 10
        have hbs : ((le.skipTo 10).2).index ≤ le.input.length :=
          w1 (by rw [hk2]; exact hk3)
        rw [hk2] at hbs
        have hm := hp1.2.2.2.2.1
        exact ⟨by omega, by rw [j1, hk2], hbs⟩
    · split at h
      · cases h
      · cases h
      · cases h
      · rename_i h35 h59 h10
        cases h
        have hle1 : ((l.skipWS).2).index ≤ ((l.skipWS).2).input.length := by
          rw [hp1.1]
          exact hp1.2.2.2.2.2 hle
        obtain ⟨j1, g1, t1, q1, z1, w1⟩ := pres_skipTo ((l.skipWS).2) 10
        have hbs : ((((l.skipWS).2).skipTo 10).2).index ≤ ((l.skipWS).2).input.length :=
          w1 hle1
        rw [hp1.1] at hbs
        have hm := hp1.2.2.2.2.1
        refine ⟨?_, by rw [j1, hp1.1], hbs⟩
        cases hc : ((l.skipWS).2).peek with
        | none =>
          have hge := peek_none_ge ((l.skipWS).2) hc
          rw [hp1.1] at hge
          omega
        | some b =>
          have hb10 : b ≠ 10 := by
            intro hbe
            rw [hbe] at hc
            exact h10 hc
          have hstrict := skipTo_strict ((l.skipWS).2) 10 b
            (by rw [hp1.1]; exact hp1.2.2.2.2.2 hle) hc hb10
          omega

theorem do1_ok_progress {σ : Type} (sink : IniSink σ) (st : σ) (l : Lexer)
    (hlt : l.index < l.input.length) :
    ∀ e st2 l2, do1 sink st l = .ok e st2 l2 →
      l.index < l2.index ∧ l2.input = l.input ∧ l2.index ≤ l.input.length := by
  intro e st2 l2 h
  unfold do1 at h
  split at h
  · rename_i st3 l3 heqb
    cases h
    exact do1body_ok_progress sink st l hlt st2 l2 heqb
  · rename_i pe st3 le heqb
    cases h
    exact do1body_err_progress sink st l hlt pe st2 le heqb
  · cases h
  · cases h

theorem do1_not_fuelOut {σ : Type} (sink : IniSink σ) (st : σ) (l : Lexer)
    (hlt : l.index < l.input.length) :
    do1 sink st l ≠ .fuelOut := by
  intro h
  unfold do1 at h
  split at h
  · cases h
  · cases h
  · cases h
  · rename_i st3 le heqb
    exact do1body_not_fuelOut sink st l hlt _ st3 le heqb rfl

theorem doLoopF_no_fuelOut {σ : Type} (sink : IniSink σ) (fuel : Nat) :
    ∀ (st : σ) (l : Lexer) (errs : List ParseError) (n : Nat),
      l.index ≤ l.input.length → l.input.length ≤ fuel + l.index →
      doLoopF sink fuel st l errs n ≠ .fuelOut := by
  induction fuel with
  | zero =>
    intro st l errs n hle hfuel h
    by_cases hlt : l.index < l.input.length
    · exact absurd hfuel (by omega)
    · rw [doLoopF, if_neg hlt] at h
      rw [show l.getRange l.index =
          ((⟨l.index, l.index, l.prevEnd, l.input⟩ : IniRange),
            { l with prevEnd := l.index }) from rfl] at h
      simp only [] at h
      cases hd : sink.done st ⟨l.index, l.index, l.prevEnd, l.input⟩ with
      | none =>
        rw [hd] at h
        cases h
      | some st2 =>
        rw [hd] at h
        cases h
  | succ fuel ih =>
    intro st l errs n hle hfuel h
    by_cases hlt : l.index < l.input.length
    · rw [doLoopF, if_pos hlt] at h
      cases hdo : do1 sink st l with
      | ok e st2 l2 =>
        rw [hdo] at h
        obtain ⟨hs, hinp, hb⟩ := do1_ok_progress sink st l hlt e st2 l2 hdo
        refine ih st2 l2 (errs ++ e.toList) (n + 1) ?_ ?_ h
        · rw [hinp]
          exact hb
        · rw [hinp]
          omega
      | crashed st2 l2 =>
        rw [hdo] at h
        cases h
      | fuelOut =>
        exact do1_not_fuelOut sink st l hlt hdo
    · rw [doLoopF, if_neg hlt] at h
      rw [show l.getRange l.index =
          ((⟨l.index, l.index, l.prevEnd, l.input⟩ : IniRange),
            { l with prevEnd := l.index }) from rfl] at h
      simp only [] at h
      cases hd : sink.done st ⟨l.index, l.index, l.prevEnd, l.input⟩ with
      | none =>
        rw [hd] at h
        cases h
      | some st2 =>
        rw [hd] at h
        cases h

theorem doLoopF_count {σ : Type} (sink : IniSink σ) (fuel : Nat) :
    ∀ (st : σ) (l : Lexer) (errs : List ParseError) (n : Nat) err st2 lf k,
      doLoopF sink fuel st l errs n = .done err st2 lf k →
      k ≤ n + (l.input.length - l.index) := by
  induction fuel with
  | zero =>
    intro st l errs n err st2 lf k h
    by_cases hlt : l.index < l.input.length
    · rw [doLoopF, if_pos hlt] at h
      cases h
    · rw [doLoopF, if_neg hlt] at h
      rw [show l.getRange l.index =
          ((⟨l.index, l.index, l.prevEnd, l.input⟩ : IniRange),
            { l with prevEnd := l.index }) from rfl] at h
      simp only [] at h
      cases hd : sink.done st ⟨l.index, l.index, l.prevEnd, l.input⟩ with
      | none =>
        rw [hd] at h
        cases h
      | some st3 =>
        rw [hd] at h
        cases h
        omega
  | succ fuel ih =>
    intro st l errs n err st2 lf k h
    by_cases hlt : l.index < l.input.length
    · rw [doLoopF, if_pos hlt] at h
      cases hdo : do1 sink st l with
      | ok e st3 l2 =>
        rw [hdo] at h
        obtain ⟨hs, hinp, hb⟩ := do1_ok_progress sink st l hlt e st3 l2 hdo
        have := ih st3 l2 (errs ++ e.toList) (n + 1) err st2 lf k h
        rw [hinp] at this
        omega
      | crashed st3 l2 =>
        rw [hdo] at h
        cases h
      | fuelOut =>
        rw [hdo] at h
        cases h
    · rw [doLoopF, if_neg hlt] at h
      rw [show l.getRange l.index =
          ((⟨l.index, l.index, l.prevEnd, l.input⟩ : IniRange),
            { l with prevEnd := l.index }) from rfl] at h
      simp only [] at h
      cases hd : sink.done st ⟨l.index, l.index, l.prevEnd, l.input⟩ with
      | none =>
        rw [hd] at h
        cases h
      | some st3 =>
        rw [hd] at h
        cases h
        omega

/-- C10: parsing terminates on every input.  Whenever input remains, an
iteration of the statement loop (do1, including the error-recovery path
that skips to the next newline) strictly advances the cursor index, so
with fuel equal to the input length the loop never exhausts its fuel and
a completed parse runs at most len(input) iterations. -/
theorem claim_C10_termination :
    (∀ (σ : Type) (sink : IniSink σ) (st : σ) (l : Lexer) (e : Option ParseError)
       (st2 : σ) (l2 : Lexer), l.index < l.input.length →
         do1 sink st l = .ok e st2 l2 → l.index < l2.index) ∧
    (∀ (σ : Type) (sink : IniSink σ) (st : σ) (file contents : Bytes),
       IniParseContents sink st file contents ≠ .fuelOut ∧
       (∀ err st2 lf k, IniParseContents sink st file contents = .done err st2 lf k →
          k ≤ contents.length)) := by
  constructor
  · intro σ sink st l e st2 l2 hlt h
    exact (do1_ok_progress sink st l hlt e st2 l2 h).1
  · intro σ sink st file contents
    constructor
    · exact doLoopF_no_fuelOut sink contents.length (sink.init st)
        ⟨0, 0, 0, contents, file, none, 0⟩ [] 0 (Nat.zero_le _)
        (by show contents.length ≤ contents.length + 0; omega)
    · intro err st2 lf k h
      have h2 : k ≤ 0 + (contents.length - 0) :=
        doLoopF_count sink contents.length (sink.init st)
          ⟨0, 0, 0, contents, file, none, 0⟩ [] 0 err st2 lf k h
      omega

def lexC10 : Lexer := ⟨2, 1, 0, [97, 10], [], none, 2⟩

theorem claim_C10_witness :
    0 < lexC10.index ∧
    IniParseContents nullSink () [] [97, 10] ≠ ParseOutcome.fuelOut ∧
    1 ≤ 2 :=
  ⟨claim_C10_termination.1 Unit nullSink () ⟨0, 0, 0, [97, 10], [], none, 0⟩
      none () lexC10 (by decide) (by decide),
    (claim_C10_termination.2 Unit nullSink () [] [97, 10]).1,
    (claim_C10_termination.2 Unit nullSink () [] [97, 10]).2 none ()
      lexC10 1 (by decide)⟩
